import Mathlib

/-!
Verification of the metaweb MetaApp indexer and deploy worker.

Shallow embedding of the Go sources:
  * the Pebble-backed collection store (`database` package): collections are
    association lists of string keys ordered by insertion through `kvSet`;
  * the indexer core (`indexer_service` package): per-pin handling,
    `first_pin_id` resolution, deploy-queue insertion;
  * the deploy worker: queue tick, artifact download outcome (modelled as an
    oracle), zip extraction with the path-escape check;
  * the MVC (variant-B) transaction hash (`common` package).

Bytes are `Nat` values below 256, machine integers are `Int`/`Nat` with
explicit truncation where the Go code casts.  The helpers `SHA256`,
`DoubleSHA256` and the little-endian encoders live in the repository's
`tool` package, which is not part of the provided sources; they are
modelled from the spec (real SHA-256, little-endian byte encoding).
-/

namespace Metaweb

/-- Truncate to a 32-bit word, as the Go `uint32` casts do. -/
def w32 (x : Nat) : Nat := x % 4294967296

/-- Rotate a 32-bit word right by `n` bits. -/
def rotr32 (x n : Nat) : Nat := w32 ((x >>> n) ||| (x <<< (32 - n)))

/-- Modelled from the spec: 4-byte little-endian encoding
(`tool.Uint32ToLittleEndianBytes` / `binary.LittleEndian.PutUint32`). -/
def le32 (n : Nat) : List Nat :=
  [n % 256, n / 256 % 256, n / 65536 % 256, n / 16777216 % 256]

/-- Modelled from the spec: 8-byte little-endian encoding
(`tool.Uint64ToLittleEndianBytes` / `binary.LittleEndian.PutUint64`). -/
def le64 (n : Nat) : List Nat :=
  le32 (n % 4294967296) ++ le32 (n / 4294967296 % 4294967296)

/-- 4-byte big-endian encoding of a 32-bit word (SHA-256 digest output). -/
def be32 (n : Nat) : List Nat :=
  [n / 16777216 % 256, n / 65536 % 256, n / 256 % 256, n % 256]

/-- 8-byte big-endian encoding of a 64-bit value (SHA-256 length field). -/
def be64 (n : Nat) : List Nat :=
  be32 (n / 4294967296 % 4294967296) ++ be32 (n % 4294967296)

/-- Little-endian 32-bit read of the first four bytes of a byte list
(`binary.LittleEndian.Uint32`). -/
def readLE32 (bs : List Nat) : Nat :=
  bs.getD 0 0 + 256 * bs.getD 1 0 + 65536 * bs.getD 2 0 + 16777216 * bs.getD 3 0

/-- Big-endian 32-bit read of four consecutive bytes starting at `i`. -/
def readBE32At (bs : List Nat) (i : Nat) : Nat :=
  16777216 * bs.getD i 0 + 65536 * bs.getD (i + 1) 0 + 256 * bs.getD (i + 2) 0
    + bs.getD (i + 3) 0

/-- SHA-256 round constants. -/
def shaK : List Nat :=
  [1116352408, 1899447441, 3049323471, 3921009573,
   961987163, 1508970993, 2453635748, 2870763221,
   3624381080, 310598401, 607225278, 1426881987,
   1925078388, 2162078206, 2614888103, 3248222580,
   3835390401, 4022224774, 264347078, 604807628,
   770255983, 1249150122, 1555081692, 1996064986,
   2554220882, 2821834349, 2952996808, 3210313671,
   3336571891, 3584528711, 113926993, 338241895,
   666307205, 773529912, 1294757372, 1396182291,
   1695183700, 1986661051, 2177026350, 2456956037,
   2730485921, 2820302411, 3259730800, 3345764771,
   3516065817, 3600352804, 4094571909, 275423344,
   430227734, 506948616, 659060556, 883997877,
   958139571, 1322822218, 1537002063, 1747873779,
   1955562222, 2024104815, 2227730452, 2361852424,
   2428436474, 2756734187, 3204031479, 3329325298]

/-- SHA-256 message padding: append `0x80`, zero bytes up to 56 mod 64, then
the bit length as 8 big-endian bytes. -/
def shaPad (msg : List Nat) : List Nat :=
  let r := msg.length % 64
  let zeros := if r ≤ 55 then 55 - r else 119 - r
  msg ++ 0x80 :: List.replicate zeros 0 ++ be64 (8 * msg.length)

/-- Split a byte list into 64-byte blocks. -/
def toBlocks (bs : List Nat) : List (List Nat) :=
  if bs = [] then []
  else bs.take 64 :: toBlocks (bs.drop 64)
termination_by bs.length
decreasing_by
  simp only [List.length_drop]
  have : bs.length ≠ 0 := by
    intro h
    exact (by assumption : bs ≠ []) (List.eq_nil_of_length_eq_zero h)
  omega

/-- SHA-256 message schedule: the 64 words expanded from a 64-byte block. -/
def shaSchedule (block : List Nat) : List Nat :=
  let w16 := (List.range 16).map (fun i => readBE32At block (4 * i))
  (List.range 48).foldl
    (fun w i =>
      let s0 := (rotr32 (w.getD (i + 1) 0) 7) ^^^ (rotr32 (w.getD (i + 1) 0) 18)
                  ^^^ ((w.getD (i + 1) 0) >>> 3)
      let s1 := (rotr32 (w.getD (i + 14) 0) 17) ^^^ (rotr32 (w.getD (i + 14) 0) 19)
                  ^^^ ((w.getD (i + 14) 0) >>> 10)
      w ++ [w32 (s1 + w.getD (i + 9) 0 + s0 + w.getD i 0)])
    w16

/-- Working state of the SHA-256 compression function. -/
structure ShaState where
  a : Nat
  b : Nat
  c : Nat
  d : Nat
  e : Nat
  f : Nat
  g : Nat
  h : Nat
deriving DecidableEq

/-- Initial SHA-256 chaining value. -/
def shaInit : ShaState :=
  ⟨1779033703, 3144134277, 1013904242, 2773480762,
   1359893119, 2600822924, 528734635, 1541459225⟩

/-- One SHA-256 compression round. -/
def shaRound (w k : Nat) (s : ShaState) : ShaState :=
  let bigS1 := (rotr32 s.e 6) ^^^ (rotr32 s.e 11) ^^^ (rotr32 s.e 25)
  let ch := (s.e &&& s.f) ^^^ ((s.e ^^^ 4294967295) &&& s.g)
  let t1 := w32 (s.h + bigS1 + ch + k + w)
  let bigS0 := (rotr32 s.a 2) ^^^ (rotr32 s.a 13) ^^^ (rotr32 s.a 22)
  let maj := (s.a &&& s.b) ^^^ (s.a &&& s.c) ^^^ (s.b &&& s.c)
  let t2 := w32 (bigS0 + maj)
  ⟨w32 (t1 + t2), s.a, s.b, s.c, w32 (s.d + t1), s.e, s.f, s.g⟩

/-- Compress one 64-byte block into the chaining state. -/
def shaCompress (s : ShaState) (block : List Nat) : ShaState :=
  let w := shaSchedule block
  let t := (List.range 64).foldl (fun st i => shaRound (w.getD i 0) (shaK.getD i 0) st) s
  ⟨w32 (s.a + t.a), w32 (s.b + t.b), w32 (s.c + t.c), w32 (s.d + t.d),
   w32 (s.e + t.e), w32 (s.f + t.f), w32 (s.g + t.g), w32 (s.h + t.h)⟩

/-- Modelled from the spec: `tool.SHA256`, the standard SHA-256 digest of a
byte string, as 32 bytes. -/
def SHA256 (msg : List Nat) : List Nat :=
  let s := (toBlocks (shaPad msg)).foldl shaCompress shaInit
  be32 s.a ++ be32 s.b ++ be32 s.c ++ be32 s.d ++ be32 s.e ++ be32 s.f
    ++ be32 s.g ++ be32 s.h

/-- Modelled from the spec: `tool.DoubleSHA256`, SHA-256 applied twice. -/
def DoubleSHA256 (msg : List Nat) : List Nat := SHA256 (SHA256 msg)

/-- Lower-case hex digit for a value below 16. -/
def hexDigit (n : Nat) : Char :=
  if n < 10 then Char.ofNat (48 + n) else Char.ofNat (87 + n)

/-- Lower-case hex encoding of a byte list (`hex.EncodeToString`). -/
def hexStr (bs : List Nat) : String :=
  String.mk (bs.foldr (fun b acc => hexDigit (b / 16 % 16) :: hexDigit (b % 16) :: acc) [])

/-- Decimal digits of a natural number, most significant first; structural
recursion on a digit-count fuel so the kernel can evaluate it (24 digits
cover every 64-bit value this model formats). -/
def natDecCharsAux : Nat → Nat → List Char
  | 0, _ => []
  | fuel + 1, n =>
    if n < 10 then [Char.ofNat (48 + n)]
    else natDecCharsAux fuel (n / 10) ++ [Char.ofNat (48 + n % 10)]

/-- Decimal digits of a natural number, most significant first. -/
def natDecChars (n : Nat) : List Char := natDecCharsAux 24 n

/-- Decimal rendering of an `Int` (`strconv.FormatInt(x, 10)`). -/
def intDecStr (i : Int) : String :=
  if i < 0 then String.mk ('-' :: natDecChars (-i).toNat)
  else String.mk (natDecChars i.toNat)

/-- Does `l` start with `pat`? -/
def listStartsWith : List Char → List Char → Bool
  | _, [] => true
  | [], _ :: _ => false
  | a :: as, b :: bs => a == b && listStartsWith as bs

/-- `strings.HasPrefix`. -/
def strStarts (s pre2 : String) : Bool := listStartsWith s.data pre2.data

/-- `strings.HasSuffix`. -/
def strEnds (s suf : String) : Bool := listStartsWith s.data.reverse suf.data.reverse

/-- Drop the first `n` characters (ASCII `strings.TrimPrefix` after a
successful `HasPrefix` test). -/
def strDrop (s : String) (n : Nat) : String := String.mk (s.data.drop n)

/-- Drop the last `n` characters. -/
def strDropRight (s : String) (n : Nat) : String :=
  String.mk (s.data.take (s.data.length - n))

/-- ASCII `strings.ToLower`. -/
def strToLower (s : String) : String :=
  String.mk (s.data.map (fun c =>
    if 65 ≤ c.toNat && c.toNat ≤ 90 then Char.ofNat (c.toNat + 32) else c))

/-- Does `pat` occur inside `l`? -/
def listContainsSeg (l pat : List Char) : Bool :=
  match l with
  | [] => pat.isEmpty
  | _ :: t => listStartsWith l pat || listContainsSeg t pat

/-- Byte-wise (code-point) strict lexicographic order on character lists —
Pebble's default key comparator restricted to the ASCII keys this store
uses. -/
def charsLt : List Char → List Char → Bool
  | [], [] => false
  | [], _ :: _ => true
  | _ :: _, [] => false
  | a :: as, b :: bs =>
    if a.toNat < b.toNat then true
    else if b.toNat < a.toNat then false
    else charsLt as bs

/-- Strict lexicographic order on strings (Pebble key order). -/
def strLt (a b : String) : Bool := charsLt a.data b.data

/-- Non-strict lexicographic order on strings. -/
def strLe (a b : String) : Bool := !(strLt b a)

/-- Substring test, `strings.Contains`. -/
def strContains (s pat : String) : Bool := listContainsSeg s.data pat.data

/-- `strings.TrimSuffix`: drop `suf` from the end of `s` when present. -/
def trimSuffixStr (s suf : String) : String :=
  if strEnds s suf then strDropRight s suf.data.length else s

/-- Split a character list at every occurrence of `c` (`strings.Split` with
a one-character separator). -/
def splitOnChar (c : Char) (l : List Char) : List (List Char) :=
  l.foldr
    (fun x acc =>
      if x == c then [] :: acc
      else
        match acc with
        | h :: t => (x :: h) :: t
        | [] => [[x]])
    [[]]

/-- Join character lists with a separator character. -/
def joinWithChar (c : Char) : List (List Char) → List Char
  | [] => []
  | [x] => x
  | x :: xs => x ++ c :: joinWithChar c xs

/-- Lexical path cleaning, Go's `path/filepath.Clean` on slash-separated
paths: drop empty and `.` components, resolve `..` against the stack, keep
leading `..` only for relative paths. -/
def goClean (p : String) : String :=
  let rooted := strStarts p "/"
  let stack := (splitOnChar '/' p.data).foldl
    (fun st c =>
      if c = [] ∨ c = ['.'] then st
      else if c = ['.', '.'] then
        match st with
        | [] => if rooted then [] else [['.', '.']]
        | top :: rest => if top = ['.', '.'] then c :: st else rest
      else c :: st) []
  let segs := stack.reverse
  if segs.isEmpty then (if rooted then "/" else ".")
  else (if rooted then "/" else "") ++ String.mk (joinWithChar '/' segs)

/-- Go's `filepath.Join` of two non-empty elements: separator-join then
clean. -/
def goJoin (a b : String) : String := goClean (a ++ "/" ++ b)

/-!  The collection store.  Each Pebble collection is an association list of
string keys to values; `kvSet` inserts in key order, replacing an equal key,
so lists built from `[]` stay sorted and key-distinct and the first element
is the smallest key — exactly what a forward Pebble iterator yields.  -/

/-- One Pebble collection. -/
abbrev KV (α : Type) : Type := List (String × α)

/-- The empty collection. -/
def kvEmpty (α : Type) : KV α := []

/-- `Set`: insert a key/value pair in key order, replacing an equal key. -/
def kvSet {α : Type} : KV α → String → α → KV α
  | [], k, v => [(k, v)]
  | (k', v') :: t, k, v =>
    if strLt k k' then (k, v) :: (k', v') :: t
    else if k = k' then (k, v) :: t
    else (k', v') :: kvSet t k v

/-- `Get`: the value stored at a key, if any. -/
def kvGet {α : Type} : KV α → String → Option α
  | [], _ => none
  | (k', v') :: t, k => if k = k' then some v' else kvGet t k

/-- Delete every entry whose key satisfies the predicate (an iterator scan
that deletes each matching key). -/
def kvDeleteWhere {α : Type} (l : KV α) (f : String → Bool) : KV α :=
  l.filter (fun e => !(f e.1))

/-- Delete the first entry (in key order) whose value satisfies the
predicate; used by the queue scans that stop at the first match. -/
def removeFirstBy {α : Type} : KV α → (α → Bool) → KV α
  | [], _ => []
  | e :: t, f => if f e.2 then t else e :: removeFirstBy t f

/-- Replace the value of the first entry (in key order) whose value satisfies
the predicate, keeping its key. -/
def updateFirstBy {α : Type} : KV α → (α → Bool) → α → KV α
  | [], _, _ => []
  | e :: t, f, v => if f e.2 then (e.1, v) :: t else e :: updateFirstBy t f v

/-!  Data model (`models` package).  Presentation-only payload fields
(title, icons, intro, metadata, …) are omitted: no control flow of the
embedded functions reads them.  Timestamps and heights are `Int` (`int64`).  -/

/-- `model.MetaApp` — one stored version of a logical app. -/
structure MetaApp where
  firstPinId : String
  pinID : String
  txID : String
  path : String
  operation : String
  timestamp : Int
  blockHeight : Int
  creatorAddress : String
  creatorMetaId : String
  content : String
  code : String
  contentType : String
  version : String
deriving DecidableEq

/-- `model.MetaAppDeployQueue` — one outstanding deployment. -/
structure MetaAppDeployQueue where
  firstPinId : String
  pinID : String
  timestamp : Int
  content : String
  code : String
  contentType : String
  version : String
  tryCount : Int
deriving DecidableEq

/-- `model.MetaAppDeployFileContent` — the deploy result for a pin. -/
structure MetaAppDeployFileContent where
  firstPinId : String
  pinID : String
  content : String
  code : String
  contentType : String
  version : String
  deployStatus : String
  deployFilePath : String
  deployMessage : String
deriving DecidableEq

/-- One decoded MetaID pin (`indexer.MetaIDData`) with its JSON payload
already parsed into the protocol fields (`metaid_protocols.MetaApp`); the
creator address carried here is the one the service resolves before building
the record. -/
structure PinData where
  pinID : String
  txID : String
  operation : String
  path : String
  creatorAddress : String
  content : String
  code : String
  contentType : String
  version : String
deriving DecidableEq

/-- The collections of the embedded store (`database.PebbleDatabase`):
`metaapp_pin`, `metaapp_pin_latest`, `metaapp_pin_history`,
`metaapp_meta_timestamp`, `metaapp_timestamp`, `metaapp_deploy_queue`,
`metaapp_deploy_file_content`. -/
structure Store where
  pins : KV MetaApp
  latest : KV MetaApp
  history : KV (List MetaApp)
  byCreator : KV MetaApp
  byTime : KV MetaApp
  queue : KV MetaAppDeployQueue
  results : KV MetaAppDeployFileContent
deriving DecidableEq

/-- The store with every collection empty. -/
def emptyStore : Store :=
  ⟨[], [], [], [], [], [], []⟩

/-- `math.MaxInt64`, the bias of the reverse-timestamp keys. -/
def maxInt64 : Int := 9223372036854775807

/-- The reverse-timestamp key fragment: `strconv.FormatInt(MaxInt64 - ts)`. -/
def reverseTsKey (ts : Int) : String := intDecStr (maxInt64 - ts)

/-- Insert one record into a timestamp-descending list (the store keeps each
history list sorted by `Timestamp` desc; Go uses an unstable `sort.Slice`,
so only membership and length are specified). -/
def insertByTsDesc (a : MetaApp) : List MetaApp → List MetaApp
  | [] => [a]
  | b :: t => if b.timestamp < a.timestamp then a :: b :: t else b :: insertByTsDesc a t

/-- Sort a history list by `Timestamp` desc. -/
def sortByTsDesc (l : List MetaApp) : List MetaApp := l.foldr insertByTsDesc []

/-- `PebbleDatabase.addToHistory`: read the list stored under the first pin
id (default empty), append the record, re-sort by timestamp desc, store. -/
def addToHistory (hist : KV (List MetaApp)) (firstPinID : String) (app : MetaApp) :
    KV (List MetaApp) :=
  let old := (kvGet hist firstPinID).getD []
  kvSet hist firstPinID (sortByTsDesc (old ++ [app]))

/-- The record as serialized by `CreateMetaApp`: an empty `FirstPinId` is
replaced by the record's own `PinID` before any collection is written. -/
def normalizeFirstPin (app : MetaApp) : MetaApp :=
  if app.firstPinId = "" then { app with firstPinId := app.pinID } else app

/-- `PebbleDatabase.CreateMetaApp`: write the (first-pin-normalized) record
into the pin, latest and history collections, then refresh the by-creator
and by-time indexes, deleting stale keys that share the `first_pin_id`
suffix but differ from the new key. -/
def CreateMetaApp (st : Store) (app : MetaApp) : Store :=
  let firstPinID := if app.firstPinId = "" then app.pinID else app.firstPinId
  let app' := normalizeFirstPin app
  let revKey := reverseTsKey app.timestamp
  let metaIDTimestampKey := app.creatorMetaId ++ ":" ++ revKey ++ ":" ++ firstPinID
  let lo := app.creatorMetaId ++ ":"
  let byCreator :=
    kvSet
      (kvDeleteWhere st.byCreator
        (fun k => strLe lo k && strLt k (lo ++ "~")
          && strEnds k (":" ++ firstPinID) && k != metaIDTimestampKey))
      metaIDTimestampKey app'
  let timestampIndexKey := revKey ++ ":" ++ firstPinID
  let byTime :=
    kvSet
      (kvDeleteWhere st.byTime
        (fun k => strEnds k (":" ++ firstPinID) && k != timestampIndexKey))
      timestampIndexKey app'
  { st with
    pins := kvSet st.pins app.pinID app'
    latest := kvSet st.latest firstPinID app'
    history := addToHistory st.history firstPinID app'
    byCreator := byCreator
    byTime := byTime }

/-- `PebbleDatabase.UpdateMetaApp`: recreate (overwrite). -/
def UpdateMetaApp (st : Store) (app : MetaApp) : Store := CreateMetaApp st app

/-- `PebbleDatabase.AddToDeployQueue`: set under key
`reverse_timestamp:pin_id`, overwriting an equal key. -/
def AddToDeployQueue (q : KV MetaAppDeployQueue) (item : MetaAppDeployQueue) :
    KV MetaAppDeployQueue :=
  kvSet q (reverseTsKey item.timestamp ++ ":" ++ item.pinID) item

/-- `PebbleDatabase.GetDeployQueueItem`: scan in key order for the first
value with the given pin id. -/
def GetDeployQueueItem (q : KV MetaAppDeployQueue) (pinID : String) :
    Option MetaAppDeployQueue :=
  (q.find? (fun e => e.2.pinID == pinID)).map (fun e => e.2)

/-- `PebbleDatabase.UpdateDeployQueueItem`: replace the value of the first
entry whose pin id matches, keeping its key. -/
def UpdateDeployQueueItem (q : KV MetaAppDeployQueue) (item : MetaAppDeployQueue) :
    KV MetaAppDeployQueue :=
  updateFirstBy q (fun e => e.pinID == item.pinID) item

/-- `PebbleDatabase.RemoveFromDeployQueue`: delete the first entry whose pin
id matches (no change when absent). -/
def RemoveFromDeployQueue (q : KV MetaAppDeployQueue) (pinID : String) :
    KV MetaAppDeployQueue :=
  removeFirstBy q (fun e => e.pinID == pinID)

/-- `PebbleDatabase.GetNextDeployQueueItem`: the value under the first
(smallest) key of the deploy-queue collection. -/
def GetNextDeployQueueItem (q : KV MetaAppDeployQueue) : Option MetaAppDeployQueue :=
  q.head?.map (fun e => e.2)

/-- `PebbleDatabase.CreateOrUpdateDeployFileContent`: set under the pin id. -/
def CreateOrUpdateDeployFileContent (r : KV MetaAppDeployFileContent)
    (c : MetaAppDeployFileContent) : KV MetaAppDeployFileContent :=
  kvSet r c.pinID c

/-!  Indexer core (`indexer_service`).  -/

/-- `metaid_protocols.ProtocolList`. -/
def protocolList : List String := ["/protocols/metaapp"]

/-- Lower-case hex digit test. -/
def isHexLowerChar (c : Char) : Bool :=
  c.isDigit || (97 ≤ c.toNat && c.toNat ≤ 102)

/-- Match against the pin-id shape `[0-9a-f]\x7b64\x7di\d+` anchored at both
ends (the `regexp.MatchString` calls). -/
def isPinIdBody (s : String) : Bool :=
  let cs := s.data
  (cs.take 64).all isHexLowerChar &&
  (match cs.drop 64 with
   | 'i' :: ds => !ds.isEmpty && ds.all Char.isDigit
   | _ => false)

/-- `isValidMetafilePinID`: `metafile://` followed by a well-formed pin id. -/
def isValidMetafilePinID (pinID : String) : Bool :=
  if !(strStarts pinID "metafile://") then false
  else
    let pinIDPart := strDrop pinID 11
    if pinIDPart = "" then false
    else isPinIdBody pinIDPart

/-- `isMetaAppPath`: recognise a MetaApp pin path and whether it is an
`@pin_id` reference; mirrors the three checks of the source (protocol path,
leading `@`, embedded `@pin_id` optionally ending in a closing brace). -/
def isMetaAppPath (path : String) : Bool × Bool :=
  if path = "" then (false, false)
  else if protocolList.any (fun pp => strStarts path pp || strContains path pp) then
    (true, false)
  else if strStarts path "@" then (true, true)
  else if strContains path "@" then
    let parts := splitOnChar '@' path.data
    if parts.length > 1 then
      let afterAt := trimSuffixStr (String.mk (parts.getLastD [])) "\x7d"
      if isPinIdBody afterAt then (true, true) else (false, false)
    else (false, false)
  else (false, false)

/-- `calculateMetaID`: hex of SHA-256 of the address bytes (addresses are
ASCII, so code points equal UTF-8 bytes); empty for an empty address. -/
def calculateMetaID (address : String) : String :=
  if address = "" then ""
  else hexStr (SHA256 (address.data.map Char.toNat))

/-- `ensureMillisecondTimestamp`: a sub-13-digit (seconds) timestamp is
scaled to milliseconds. -/
def ensureMillisecondTimestamp (timestamp : Int) : Int :=
  if timestamp < 10000000000 then timestamp * 1000 else timestamp

/-- Errors of the `first_pin_id` resolution. -/
inductive ResolveErr where
  | circularReference (pinID : String)
  | notFound (pinID : String)
  | emptyPath
  | invalidPath
  | fuelExhausted
deriving DecidableEq

/-- `findFirstPinIDRecursive`: walk parent pointers upward, refusing a pin
already visited and a pin absent from the store.  The walk recurses only
after marking an unvisited pin that is present in the store, so with fuel
`pins.length + 1` (the caller's choice) the `fuelExhausted` branch is
unreachable. -/
def findFirstPinIDRecursive (fuel : Nat) (st : Store) (pinID : String)
    (visited : List String) : Except ResolveErr String :=
  match fuel with
  | 0 => .error .fuelExhausted
  | fuel + 1 =>
    if visited.contains pinID then .error (.circularReference pinID)
    else
      let visited' := pinID :: visited
      match kvGet st.pins pinID with
      | none => .error (.notFound pinID)
      | some metaApp =>
        if metaApp.operation = "create" then
          if metaApp.firstPinId ≠ "" then .ok metaApp.firstPinId
          else .ok metaApp.pinID
        else if metaApp.operation = "modify" then
          if metaApp.firstPinId ≠ "" then
            if metaApp.firstPinId ≠ pinID then
              findFirstPinIDRecursive fuel st metaApp.firstPinId visited'
            else .ok metaApp.firstPinId
          else if metaApp.path ≠ "" && strStarts metaApp.path "@" then
            let nextPinID := strDrop metaApp.path 1
            if nextPinID ≠ "" && nextPinID ≠ pinID then
              findFirstPinIDRecursive fuel st nextPinID visited'
            else .ok pinID
          else .ok pinID
        else .ok pinID

/-- `extractFirstPinIDFromOriginalPath`: strip one leading `@` and resolve
recursively with an empty visited set. -/
def extractFirstPinIDFromOriginalPath (st : Store) (path : String) :
    Except ResolveErr String :=
  if path = "" then .error .emptyPath
  else
    let currentPinID := if strStarts path "@" then strDrop path 1 else path
    if currentPinID = "" then .error .invalidPath
    else findFirstPinIDRecursive (st.pins.length + 1) st currentPinID []

/-- The MetaAppRecord both `processMetaAppContent` and
`processMetaAppModify` build from a decoded pin. -/
def buildMetaAppRecord (md : PinData) (firstPinID : String) (height timestamp : Int) :
    MetaApp :=
  { firstPinId := firstPinID
    pinID := md.pinID
    txID := md.txID
    path := md.path
    operation := md.operation
    timestamp := ensureMillisecondTimestamp timestamp
    blockHeight := height
    creatorAddress := md.creatorAddress
    creatorMetaId := calculateMetaID md.creatorAddress
    content := md.content
    code := md.code
    contentType := md.contentType
    version := md.version }

/-- `IndexerService.addToDeployQueue`: derive the artifact reference from
`code`, else `content` with the `metafile://` scheme ensured; skip when
neither exists; otherwise insert a queue item with `try_count = 0`. -/
def addToDeployQueueService (st : Store) (metaApp : MetaApp) : Store :=
  let codePinID :=
    if metaApp.code ≠ "" then metaApp.code
    else if metaApp.content ≠ "" then
      (if strStarts metaApp.content "metafile://" then metaApp.content
       else "metafile://" ++ metaApp.content)
    else ""
  if codePinID = "" then st
  else
    { st with
      queue := AddToDeployQueue st.queue
        { firstPinId := metaApp.firstPinId
          pinID := metaApp.pinID
          timestamp := metaApp.timestamp
          content := metaApp.content
          code := codePinID
          contentType := metaApp.contentType
          version := metaApp.version
          tryCount := 0 } }

/-- `processMetaAppContent` (create path): build the record with
`first_pin_id = pin_id`, persist it, then enqueue the deploy job for the
record as normalized by the store write. -/
def processMetaAppContent (st : Store) (md : PinData) (height timestamp : Int) : Store :=
  let metaApp := buildMetaAppRecord md md.pinID height timestamp
  addToDeployQueueService (CreateMetaApp st metaApp) (normalizeFirstPin metaApp)

/-- `processMetaAppModify`: build the record with the resolved
`first_pin_id`, persist it, then enqueue the deploy job. -/
def processMetaAppModify (st : Store) (md : PinData) (firstPinID : String)
    (height timestamp : Int) : Store :=
  let metaApp := buildMetaAppRecord md firstPinID height timestamp
  addToDeployQueueService (CreateMetaApp st metaApp) (normalizeFirstPin metaApp)

/-- The per-pin body of `handleTransaction`: classify, de-duplicate by pin
id (bumping only a lower positive block height), resolve and process a
`modify`, skip a `create` whose path is itself a pin reference, otherwise
process the content. -/
def handlePinData (st : Store) (md : PinData) (height timestamp : Int) : Store :=
  let c := isMetaAppPath md.path
  if !c.1 then st
  else
    match kvGet st.pins md.pinID with
    | some existingApp =>
      if existingApp.blockHeight < height && 0 < height then
        UpdateMetaApp st { existingApp with blockHeight := height }
      else st
    | none =>
      if md.operation = "modify" && md.path ≠ "" then
        match extractFirstPinIDFromOriginalPath st md.path with
        | .error _ => st
        | .ok firstPinID =>
          if firstPinID ≠ "" then processMetaAppModify st md firstPinID height timestamp
          else st
      else if md.operation = "create" && c.2 then st
      else processMetaAppContent st md height timestamp

/-- `handleTransaction`: process each decoded pin of a transaction in
order. -/
def handleTransaction (st : Store) (mds : List PinData) (height timestamp : Int) : Store :=
  mds.foldl (fun s md => handlePinData s md height timestamp) st

/-!  Deploy worker.  Filesystem effects are reported as the list of file
paths the call leaves on disk under the deploy root; the artifact download
is an oracle (`DeployEnv`), since it is an HTTP exchange with the content
store.  -/

/-- One entry of the downloaded zip archive. -/
structure ZipEntry where
  name : String
  isDir : Bool
deriving DecidableEq

/-- `unzipFile`: for each entry join its name under the target directory and
refuse the whole extraction at the first entry whose cleaned path does not
stay under the cleaned target; directories only create directories; files
written before the offending entry remain on disk.  Returns the written
file paths and the error, if any. -/
def unzipFile (targetDir : String) : List ZipEntry → List String × Option String
  | [] => ([], none)
  | e :: rest =>
    let fpath := goJoin targetDir e.name
    if !(strStarts fpath (goClean targetDir ++ "/")) then
      ([], some ("invalid file path: " ++ fpath))
    else if e.isDir then unzipFile targetDir rest
    else
      let r := unzipFile targetDir rest
      (fpath :: r.1, r.2)

instance {ε α : Type} [DecidableEq ε] [DecidableEq α] : DecidableEq (Except ε α) := fun a b =>
  match a, b with
  | .error x, .error y =>
    if h : x = y then isTrue (by rw [h]) else isFalse (by intro hh; cases hh; exact h rfl)
  | .ok x, .ok y =>
    if h : x = y then isTrue (by rw [h]) else isFalse (by intro hh; cases hh; exact h rfl)
  | .error _, .ok _ => isFalse (by intro hh; cases hh)
  | .ok _, .error _ => isFalse (by intro hh; cases hh)

/-- Outcome of the content-store exchange for one deploy attempt: either the
download fails with a message, or it succeeds and stores a file with the
name the metafs logic decided; `zip` is the archive's entry list when that
file is a zip. -/
structure DeployEnv where
  fetch : Except String String
  zip : List ZipEntry
deriving DecidableEq

/-- The artifact reference `deployMetaApp` downloads: the item's `code` if
non-empty, else its `content` with the `metafile://` scheme ensured. -/
def derivePinToDownload (queueItem : MetaAppDeployQueue) : String :=
  if queueItem.code ≠ "" then queueItem.code
  else if queueItem.content ≠ "" then
    (if strStarts queueItem.content "metafile://" then queueItem.content
     else "metafile://" ++ queueItem.content)
  else ""

/-- The DeployResult `deployMetaApp` writes on a failed download. -/
def failedDeployContent (metaApp : MetaApp) (queueItem : MetaAppDeployQueue)
    (dir e : String) : MetaAppDeployFileContent :=
  { firstPinId := metaApp.firstPinId
    pinID := metaApp.pinID
    content := queueItem.content
    code := queueItem.code
    contentType := queueItem.contentType
    version := queueItem.version
    deployStatus := "failed"
    deployFilePath := dir
    deployMessage := e }

/-- The DeployResult `deployMetaApp` writes on a successful deploy. -/
def completedDeployContent (metaApp : MetaApp) (queueItem : MetaAppDeployQueue)
    (dir : String) : MetaAppDeployFileContent :=
  { firstPinId := metaApp.firstPinId
    pinID := metaApp.pinID
    content := queueItem.content
    code := queueItem.code
    contentType := queueItem.contentType
    version := queueItem.version
    deployStatus := "completed"
    deployFilePath := dir
    deployMessage := "" }

/-- `deployMetaApp`: look up the record, derive and validate the artifact
reference, download, unzip a `.zip` (an unzip failure is logged and the
deploy continues with the original file), and record the DeployResult —
`failed` with the message on a download failure, `completed` otherwise.
Returns the new store, the files left on disk under the deploy root, and
the error returned to the caller. -/
def deployMetaApp (env : DeployEnv) (deployBaseDir : String) (st : Store)
    (queueItem : MetaAppDeployQueue) : Store × List String × Except String Unit :=
  match kvGet st.pins queueItem.pinID with
  | none => (st, [], .error "failed to get MetaApp")
  | some metaApp =>
    let appDeployDir := goJoin deployBaseDir metaApp.firstPinId
    let pinIDToDownload := derivePinToDownload queueItem
    if pinIDToDownload = "" then (st, [], .error "no pinId to download")
    else if !isValidMetafilePinID pinIDToDownload then
      (st, [], .error ("invalid pinId format: " ++ pinIDToDownload))
    else
      match env.fetch with
      | .error e =>
        let deployContent := failedDeployContent metaApp queueItem appDeployDir e
        ({ st with results := CreateOrUpdateDeployFileContent st.results deployContent },
         [], .error ("failed to download file: " ++ e))
      | .ok fileName =>
        let filePath := goJoin appDeployDir fileName
        let files :=
          if strEnds (strToLower filePath) ".zip" then
            let r := unzipFile appDeployDir env.zip
            match r.2 with
            | some _ => filePath :: r.1
            | none => r.1
          else [filePath]
        let deployContent := completedDeployContent metaApp queueItem appDeployDir
        ({ st with results := CreateOrUpdateDeployFileContent st.results deployContent },
         files, .ok ())

/-- `processNextDeployItem`: take the first queue entry; on a deploy error
bump `try_count`, removing the item at the retry ceiling (3) and updating it
in place below the ceiling; on success remove it. -/
def processNextDeployItem (env : DeployEnv) (deployBaseDir : String) (st : Store) :
    Store × List String × Except String Unit :=
  match st.queue.head? with
  | none => (st, [], .ok ())
  | some e =>
    let queueItem := e.2
    let r := deployMetaApp env deployBaseDir st queueItem
    match r.2.2 with
    | .error msg =>
      let bumped : MetaAppDeployQueue := { queueItem with tryCount := queueItem.tryCount + 1 }
      if 3 ≤ bumped.tryCount then
        ({ r.1 with queue := RemoveFromDeployQueue r.1.queue queueItem.pinID },
         r.2.1, .error msg)
      else
        ({ r.1 with queue := UpdateDeployQueueItem r.1.queue bumped }, r.2.1, .error msg)
    | .ok _ =>
      ({ r.1 with queue := RemoveFromDeployQueue r.1.queue queueItem.pinID },
       r.2.1, .ok ())

/-- `IndexerAppService.RedeployMetaApp`: resolve the latest version for the
pin's logical app, refuse when that version is already queued, else insert a
fresh queue item with `try_count = 0` (its `FirstPinId` field is left
empty by the source). -/
def RedeployMetaApp (st : Store) (pinID : String) : Store × Except String Unit :=
  match kvGet st.pins pinID with
  | none => (st, .error "failed to get MetaApp")
  | some metaApp =>
    match kvGet st.latest metaApp.firstPinId with
    | none => (st, .error "not found")
    | some fristMetaApp =>
      match GetDeployQueueItem st.queue fristMetaApp.pinID with
      | some _ => (st, .error "MetaApp is already in deploy queue")
      | none =>
        let codePinID :=
          if fristMetaApp.code ≠ "" then fristMetaApp.code
          else if fristMetaApp.content ≠ "" then
            (if strStarts fristMetaApp.content "metafile://" then fristMetaApp.content
             else "metafile://" ++ fristMetaApp.content)
          else ""
        if codePinID = "" then (st, .error "no code or content pinId found")
        else
          ({ st with
             queue := AddToDeployQueue st.queue
               { firstPinId := ""
                 pinID := fristMetaApp.pinID
                 timestamp := fristMetaApp.timestamp
                 content := fristMetaApp.content
                 code := codePinID
                 contentType := fristMetaApp.contentType
                 version := fristMetaApp.version
                 tryCount := 0 } }, .ok ())

/-- One store-mutating operation of the running system: an ingested decoded
pin, an external redeploy request, or one deploy-worker tick. -/
inductive SysOp where
  | ingest (md : PinData) (height timestamp : Int)
  | redeploy (pinID : String)
  | tick (env : DeployEnv) (deployBaseDir : String)

/-- Apply one system operation to the store. -/
def applySysOp (st : Store) : SysOp → Store
  | .ingest md h t => handlePinData st md h t
  | .redeploy p => (RedeployMetaApp st p).1
  | .tick env base => (processNextDeployItem env base st).1

/-- The store reached by a sequence of system operations from the empty
store. -/
def runSys (ops : List SysOp) : Store :=
  ops.foldl applySysOp emptyStore

/-!  MVC (variant-B) transaction hash (`common` package).  The wire format
is the classic pre-segwit layout; `wire.MsgTx.Deserialize` reads one
transaction from the front of the byte stream, ignoring trailing bytes
(the package's sanity caps on counts and script sizes are not modelled —
they only reject absurdly large messages). -/

/-- One transaction input as deserialised from the wire. -/
structure MvcTxIn where
  prevHash : List Nat
  prevIndex : Nat
  signatureScript : List Nat
  sequence : Nat
deriving DecidableEq

/-- One transaction output as deserialised from the wire. -/
structure MvcTxOut where
  value : Nat
  pkScript : List Nat
deriving DecidableEq

/-- A deserialised MVC transaction. -/
structure MvcTx where
  version : Nat
  txIn : List MvcTxIn
  txOut : List MvcTxOut
  lockTime : Nat
deriving DecidableEq

/-- Split off the first `n` bytes, failing when fewer remain. -/
def splitBytes (n : Nat) (bs : List Nat) : Option (List Nat × List Nat) :=
  if bs.length < n then none else some (bs.take n, bs.drop n)

/-- Bitcoin-style compact-size integer, canonical encoding enforced as
`ReadVarInt` does. -/
def readVarint (bs : List Nat) : Option (Nat × List Nat) :=
  match bs with
  | [] => none
  | d :: rest =>
    if d < 0xfd then some (d, rest)
    else if d = 0xfd then
      match rest with
      | a :: b :: r =>
        let v := a + 256 * b
        if 0xfd ≤ v then some (v, r) else none
      | _ => none
    else if d = 0xfe then
      match rest with
      | a :: b :: c :: e :: r =>
        let v := a + 256 * b + 65536 * c + 16777216 * e
        if 65536 ≤ v then some (v, r) else none
      | _ => none
    else
      match rest with
      | a :: b :: c :: e :: f :: g :: h :: i :: r =>
        let v := readLE32 [a, b, c, e] + 4294967296 * readLE32 [f, g, h, i]
        if 4294967296 ≤ v then some (v, r) else none
      | _ => none

/-- Compact-size encoding, the inverse of `readVarint`. -/
def varintEnc (n : Nat) : List Nat :=
  if n < 0xfd then [n]
  else if n < 65536 then [0xfd, n % 256, n / 256 % 256]
  else if n < 4294967296 then 0xfe :: le32 n
  else 0xff :: le64 n

/-- Parse one input: 32-byte previous txid, 4-byte previous vout,
length-prefixed signature script, 4-byte sequence. -/
def parseTxIn (bs : List Nat) : Option (MvcTxIn × List Nat) := do
  let (hash, r1) ← splitBytes 32 bs
  let (idxB, r2) ← splitBytes 4 r1
  let (slen, r3) ← readVarint r2
  let (script, r4) ← splitBytes slen r3
  let (seqB, r5) ← splitBytes 4 r4
  some (⟨hash, readLE32 idxB, script, readLE32 seqB⟩, r5)

/-- Parse one output: 8-byte little-endian value and length-prefixed
pkScript. -/
def parseTxOut (bs : List Nat) : Option (MvcTxOut × List Nat) := do
  let (valB, r1) ← splitBytes 8 bs
  let (slen, r2) ← readVarint r1
  let (script, r3) ← splitBytes slen r2
  some (⟨readLE32 (valB.take 4) + 4294967296 * readLE32 (valB.drop 4), script⟩, r3)

/-- Parse `n` consecutive items. -/
def parseMany {α : Type} (p : List Nat → Option (α × List Nat)) :
    Nat → List Nat → Option (List α × List Nat)
  | 0, bs => some ([], bs)
  | n + 1, bs => do
    let (x, r) ← p bs
    let (xs, r') ← parseMany p n r
    some (x :: xs, r')

/-- `wire.MsgTx.Deserialize` for the MVC wire format: version, inputs,
outputs, locktime; trailing bytes are ignored. -/
def deserializeMvcTx (bs : List Nat) : Option MvcTx := do
  let (vB, r1) ← splitBytes 4 bs
  let (nIn, r2) ← readVarint r1
  let (ins, r3) ← parseMany parseTxIn nIn r2
  let (nOut, r4) ← readVarint r3
  let (outs, r5) ← parseMany parseTxOut nOut r4
  let (ltB, _) ← splitBytes 4 r5
  some ⟨readLE32 vB, ins, outs, readLE32 ltB⟩

/-- Serialise one input. -/
def serializeMvcTxIn (i : MvcTxIn) : List Nat :=
  i.prevHash ++ le32 i.prevIndex ++ varintEnc i.signatureScript.length
    ++ i.signatureScript ++ le32 i.sequence

/-- Serialise one output. -/
def serializeMvcTxOut (o : MvcTxOut) : List Nat :=
  le64 o.value ++ varintEnc o.pkScript.length ++ o.pkScript

/-- `wire.MsgTx.Serialize` for the MVC wire format. -/
def serializeMvcTx (tx : MvcTx) : List Nat :=
  le32 tx.version ++ varintEnc tx.txIn.length
    ++ (tx.txIn.map serializeMvcTxIn).flatten
    ++ varintEnc tx.txOut.length
    ++ (tx.txOut.map serializeMvcTxOut).flatten
    ++ le32 tx.lockTime

/-- `getTxNewRawByte`: the compact hashing pre-image — version, locktime,
input count and output count as 4-byte little-endian words, then the three
inner digests accumulated exactly as the source's loops do. -/
def getTxNewRawByte (tx : MvcTx) : List Nat :=
  let newInputsByte :=
    tx.txIn.foldl (fun acc i => acc ++ (i.prevHash ++ le32 i.prevIndex ++ le32 i.sequence)) []
  let newInputs2Byte :=
    tx.txIn.foldl (fun acc i => acc ++ SHA256 i.signatureScript) []
  let newOutputsByte :=
    tx.txOut.foldl (fun acc o => acc ++ (le64 o.value ++ SHA256 o.pkScript)) []
  le32 tx.version ++ le32 tx.lockTime
    ++ le32 tx.txIn.length ++ le32 tx.txOut.length
    ++ SHA256 newInputsByte ++ SHA256 newInputs2Byte ++ SHA256 newOutputsByte

/-- `GetTxNewhash`: deserialise and build the compact pre-image; a
deserialisation failure yields `nil` (the empty byte string). -/
def GetTxNewhash (rawTxByte : List Nat) : List Nat :=
  match deserializeMvcTx rawTxByte with
  | some tx => getTxNewRawByte tx
  | none => []

/-- `GetMvcTxhash`: read the first four bytes as a little-endian version;
for version ≥ 10 hash the compact pre-image, otherwise the raw bytes;
display as byte-reversed hex. -/
def GetMvcTxhash (rawTxByte : List Nat) : String :=
  if rawTxByte.length = 0 then ""
  else if rawTxByte.length < 4 then ""
  else
    let version := readLE32 (rawTxByte.take 4)
    let bytes := if 10 ≤ version then GetTxNewhash rawTxByte else rawTxByte
    hexStr ((DoubleSHA256 bytes).reverse)

/-- Modelled from the spec (§6, variant-B pre-image): concatenate 4-byte LE
version, locktime, input count and output count, the SHA-256 of the
concatenation over all inputs of prev txid, prev vout and sequence, the
SHA-256 of the concatenation over all inputs of the SHA-256 of the
signature script, and the SHA-256 of the concatenation over all outputs of
the 8-byte LE value and the SHA-256 of the pkScript. -/
def mvcSpecPreimage (tx : MvcTx) : List Nat :=
  le32 tx.version ++ le32 tx.lockTime ++ le32 tx.txIn.length ++ le32 tx.txOut.length
    ++ SHA256 ((tx.txIn.map (fun i => i.prevHash ++ le32 i.prevIndex ++ le32 i.sequence)).flatten)
    ++ SHA256 ((tx.txIn.map (fun i => SHA256 i.signatureScript)).flatten)
    ++ SHA256 ((tx.txOut.map (fun o => le64 o.value ++ SHA256 o.pkScript)).flatten)

/-!  Invariant predicates.  -/

/-- Every two distinct deploy-queue entries carry distinct pin ids. -/
def PinUnique (q : KV MetaAppDeployQueue) : Prop :=
  q.Pairwise (fun a b => a.2.pinID ≠ b.2.pinID)

instance (q : KV MetaAppDeployQueue) : Decidable (PinUnique q) := by
  unfold PinUnique
  infer_instance

/-- Every queued item's pin id is stored in the pin collection. -/
def QueuePinsStored (st : Store) : Prop :=
  ∀ x ∈ st.queue, (kvGet st.pins x.2.pinID).isSome

/-- Every latest-collection record's pin id is stored in the pin
collection. -/
def LatestPinsStored (st : Store) : Prop :=
  ∀ x ∈ st.latest, (kvGet st.pins x.2.pinID).isSome

/-- The inductive system invariant behind the queue-uniqueness claim. -/
def SysInv (st : Store) : Prop :=
  PinUnique st.queue ∧ QueuePinsStored st ∧ LatestPinsStored st

/-- Every record held by any collection has a non-empty `first_pin_id`. -/
def RecordsFirstNonEmpty (st : Store) : Prop :=
  (∀ x ∈ st.pins, x.2.firstPinId ≠ "") ∧
  (∀ x ∈ st.latest, x.2.firstPinId ≠ "") ∧
  (∀ x ∈ st.history, ∀ a ∈ x.2, a.firstPinId ≠ "") ∧
  (∀ x ∈ st.byCreator, x.2.firstPinId ≠ "") ∧
  (∀ x ∈ st.byTime, x.2.firstPinId ≠ "")

/-!  Concrete inputs used by counterexamples and witnesses.  -/

/-- A well-formed artifact reference (64 hex characters, `i0`). -/
def okPinCode : String := "metafile://" ++ String.mk (List.replicate 64 'a') ++ "i0"

/-- Queue item enqueued at timestamp 1000 (the older one). -/
def c1ItemOld : MetaAppDeployQueue := ⟨"a", "a", 1000, "", "metafile://a", "", "", 0⟩

/-- Queue item enqueued at timestamp 2000 (the newer one). -/
def c1ItemNew : MetaAppDeployQueue := ⟨"b", "b", 2000, "", "metafile://b", "", "", 0⟩

/-- The deploy-queue collection holding both items. -/
def c1Queue : KV MetaAppDeployQueue :=
  AddToDeployQueue (AddToDeployQueue (kvEmpty MetaAppDeployQueue) c1ItemOld) c1ItemNew

/-- A create pin, as decoded from a transaction. -/
def c2Md : PinData := ⟨"p1", "t1", "create", "/protocols/metaapp/x", "", "", "", "", "1"⟩

/-- The store after ingesting `c2Md` from the mempool (height 0) and again
from a block at height 100, both carrying the same timestamp. -/
def c2TwiceStore : Store :=
  handlePinData (handlePinData emptyStore c2Md 0 1700000000000) c2Md 100 1700000000000

/-- The store after ingesting `c2Md` from the block alone. -/
def c2OnceStore : Store := handlePinData emptyStore c2Md 100 1700000000000

/-- The store holding only the mempool version of `c2Md`. -/
def c2MemStore : Store := handlePinData emptyStore c2Md 0 1700000000000

/-- The record stored for `c2Md` at height 0. -/
def c2Ex : MetaApp := buildMetaAppRecord c2Md "p1" 0 1700000000000

/-- A modify pin whose parent `p0` is not stored. -/
def c4Md : PinData := ⟨"p2", "t2", "modify", "@p0", "", "", "c", "", "1"⟩

/-- A stored modify record `A` whose first pin points at `B`. -/
def c7A : MetaApp := ⟨"B", "A", "t", "@B", "modify", 1, 1, "", "", "", "", "", ""⟩

/-- A stored modify record `B` whose first pin points back at `A`. -/
def c7B : MetaApp := ⟨"A", "B", "t", "@A", "modify", 1, 1, "", "", "", "", "", ""⟩

/-- A store holding the two-cycle `A ↔ B`. -/
def c7St : Store :=
  { emptyStore with pins := kvSet (kvSet (kvEmpty MetaApp) "A" c7A) "B" c7B }

/-- A modify pin whose parent walk enters the cycle at `A`. -/
def c7Md : PinData := ⟨"C", "t", "modify", "@A", "", "", "c", "", ""⟩

/-- A queue item with a valid artifact reference and no retries yet. -/
def c5Item : MetaAppDeployQueue := ⟨"p", "p", 5, "", okPinCode, "", "", 0⟩

/-- The stored record behind `c5Item`. -/
def c5App : MetaApp :=
  ⟨"p", "p", "t", "/protocols/metaapp/x", "create", 5, 1, "", "", "", okPinCode, "", ""⟩

/-- A store holding `c5App` and its queued deployment. -/
def c5St : Store :=
  { emptyStore with
    pins := kvSet (kvEmpty MetaApp) "p" c5App
    queue := AddToDeployQueue (kvEmpty MetaAppDeployQueue) c5Item }

/-- A successful download of `app.zip` whose only entry escapes the root. -/
def c5Env : DeployEnv := ⟨.ok "app.zip", [⟨"../evil", false⟩]⟩

/-- A successful download of `app.zip` with a good entry before the
escaping one. -/
def c5Env2 : DeployEnv := ⟨.ok "app.zip", [⟨"ok.txt", false⟩, ⟨"../evil", false⟩]⟩

/-- A queue item whose artifact reference is malformed, on its last
allowed attempt. -/
def c6Item : MetaAppDeployQueue := ⟨"p", "p", 5, "", "metafile://bad", "", "", 2⟩

/-- The stored record behind `c6Item`. -/
def c6App : MetaApp :=
  ⟨"p", "p", "t", "/protocols/metaapp/x", "create", 5, 1, "", "", "", "metafile://bad", "", ""⟩

/-- A store holding `c6App` and its queued deployment. -/
def c6St : Store :=
  { emptyStore with
    pins := kvSet (kvEmpty MetaApp) "p" c6App
    queue := AddToDeployQueue (kvEmpty MetaAppDeployQueue) c6Item }

/-- An environment whose download fails (never reached for `c6Item`). -/
def c6Env : DeployEnv := ⟨.error "boom", []⟩

/-- `c5Item` on its last allowed attempt. -/
def c6wItem : MetaAppDeployQueue := ⟨"p", "p", 5, "", okPinCode, "", "", 2⟩

/-- A store holding `c5App` with `c6wItem` queued. -/
def c6wSt : Store :=
  { emptyStore with
    pins := kvSet (kvEmpty MetaApp) "p" c5App
    queue := AddToDeployQueue (kvEmpty MetaAppDeployQueue) c6wItem }

/-- A minimal version-10 transaction. -/
def c3Tx : MvcTx := ⟨10, [⟨List.replicate 32 0, 0, [], 4294967295⟩], [⟨0, []⟩], 0⟩

/-- Its serialization. -/
def c3Raw : List Nat := serializeMvcTx c3Tx

/-- Four raw bytes whose little-endian version is 1. -/
def c3RawSmall : List Nat := [1, 0, 0, 0]

/-- A stored record whose logical app is `f`. -/
def c8Ma : MetaApp := ⟨"f", "p", "t", "", "create", 1, 1, "", "", "", "", "", ""⟩

/-- The latest version of `f`, pin `q`. -/
def c8Fr : MetaApp := ⟨"f", "q", "t", "", "create", 2, 1, "", "", "", "c", "", ""⟩

/-- The queue item for pin `q`. -/
def c8Item : MetaAppDeployQueue := ⟨"f", "q", 2, "", "c", "", "", 0⟩

/-- A store where the latest version of `p`'s app is already queued. -/
def c8St : Store :=
  { emptyStore with
    pins := kvSet (kvEmpty MetaApp) "p" c8Ma
    latest := kvSet (kvEmpty MetaApp) "f" c8Fr
    queue := AddToDeployQueue (kvEmpty MetaAppDeployQueue) c8Item }

/-- A record with an empty `FirstPinId` field. -/
def c9App : MetaApp := ⟨"", "p9", "t9", "/protocols/metaapp/y", "create", 7, 3, "", "", "", "", "", ""⟩

/-!  Lemmas about the collection primitives.  -/

theorem kvGet_kvSet {α : Type} (l : KV α) (k k' : String) (v : α) :
    kvGet (kvSet l k v) k' = if k' = k then some v else kvGet l k' := by
  induction l with
  | nil => by_cases h : k' = k <;> simp [kvSet, kvGet, h]
  | cons e t ih =>
    obtain ⟨ke, ve⟩ := e
    by_cases h1 : strLt k ke
    · by_cases h : k' = k <;> simp [kvSet, h1, kvGet, h]
    · by_cases h2 : k = ke
      · subst h2
        by_cases h : k' = k <;> simp [kvSet, h1, kvGet, h]
      · by_cases h : k' = ke
        · subst h
          have : ¬k' = k := fun hh => h2 (hh.symm)
          simp [kvSet, h1, h2, kvGet, this]
        · simp [kvSet, h1, h2, kvGet, h, ih]

theorem mem_kvSet {α : Type} {l : KV α} {k : String} {v : α} {x : String × α}
    (hx : x ∈ kvSet l k v) : x = (k, v) ∨ x ∈ l := by
  induction l with
  | nil =>
    simp [kvSet] at hx
    exact Or.inl hx
  | cons e t ih =>
    obtain ⟨ke, ve⟩ := e
    simp only [List.mem_cons]
    by_cases h1 : strLt k ke
    · simp [kvSet, h1, List.mem_cons] at hx
      tauto
    · by_cases h2 : k = ke
      · subst h2
        simp [kvSet, h1, List.mem_cons] at hx
        tauto
      · simp [kvSet, h1, h2, List.mem_cons] at hx
        rcases hx with hx | hx
        · tauto
        · rcases ih hx with h' | h' <;> tauto

theorem kvGet_some_mem {α : Type} {l : KV α} {k : String} {v : α}
    (h : kvGet l k = some v) : (k, v) ∈ l := by
  induction l with
  | nil => simp [kvGet] at h
  | cons e t ih =>
    obtain ⟨ke, ve⟩ := e
    simp only [List.mem_cons]
    by_cases hk : k = ke
    · subst hk
      simp [kvGet] at h
      subst h
      tauto
    · simp [kvGet, hk] at h
      exact Or.inr (ih h)

theorem mem_removeFirstBy {α : Type} {l : KV α} {f : α → Bool} {x : String × α}
    (h : x ∈ removeFirstBy l f) : x ∈ l := by
  induction l with
  | nil => simp [removeFirstBy] at h
  | cons e t ih =>
    simp only [List.mem_cons]
    by_cases hf : f e.2
    · simp [removeFirstBy, hf] at h
      exact Or.inr h
    · simp [removeFirstBy, hf, List.mem_cons] at h
      rcases h with h | h
      · exact Or.inl h
      · exact Or.inr (ih h)

theorem mem_updateFirstBy {α : Type} {l : KV α} {f : α → Bool} {v : α} {x : String × α}
    (h : x ∈ updateFirstBy l f v) :
    x ∈ l ∨ (x.2 = v ∧ ∃ y ∈ l, f y.2 = true) := by
  induction l with
  | nil => simp [updateFirstBy] at h
  | cons e t ih =>
    by_cases hf : f e.2
    · simp [updateFirstBy, hf, List.mem_cons] at h
      rcases h with h | h
      · right
        exact ⟨by simp [h], e, List.mem_cons_self _ _, hf⟩
      · left
        exact List.mem_cons_of_mem _ h
    · simp [updateFirstBy, hf, List.mem_cons] at h
      rcases h with h | h
      · left
        simp [h]
      · rcases ih h with h' | ⟨h1, y, hy, hfy⟩
        · left
          exact List.mem_cons_of_mem _ h'
        · right
          exact ⟨h1, y, List.mem_cons_of_mem _ hy, hfy⟩

theorem length_insertByTsDesc (a : MetaApp) (l : List MetaApp) :
    (insertByTsDesc a l).length = l.length + 1 := by
  induction l with
  | nil => rfl
  | cons b t ih =>
    by_cases h : b.timestamp < a.timestamp <;> simp [insertByTsDesc, h, ih]

theorem length_sortByTsDesc (l : List MetaApp) :
    (sortByTsDesc l).length = l.length := by
  induction l with
  | nil => rfl
  | cons b t ih => simp [sortByTsDesc, List.foldr] at ih ⊢; rw [length_insertByTsDesc, ih]

theorem mem_insertByTsDesc {a x : MetaApp} {l : List MetaApp}
    (h : x ∈ insertByTsDesc a l) : x = a ∨ x ∈ l := by
  induction l with
  | nil =>
    simp [insertByTsDesc] at h
    exact Or.inl h
  | cons b t ih =>
    simp only [List.mem_cons]
    by_cases hc : b.timestamp < a.timestamp
    · simp [insertByTsDesc, hc, List.mem_cons] at h
      tauto
    · simp [insertByTsDesc, hc, List.mem_cons] at h
      rcases h with h | h
      · tauto
      · rcases ih h with h' | h' <;> tauto

theorem mem_sortByTsDesc {x : MetaApp} {l : List MetaApp}
    (h : x ∈ sortByTsDesc l) : x ∈ l := by
  induction l with
  | nil => simp [sortByTsDesc] at h
  | cons b t ih =>
    have : sortByTsDesc (b :: t) = insertByTsDesc b (sortByTsDesc t) := rfl
    rw [this] at h
    rcases mem_insertByTsDesc h with h' | h'
    · simp [h']
    · exact List.mem_cons_of_mem _ (ih h')

theorem two_mem_le_length {α : Type} {l : List α} {a b : α}
    (ha : a ∈ l) (hb : b ∈ l) (hab : a ≠ b) : 2 ≤ l.length := by
  induction l with
  | nil => cases ha
  | cons e t ih =>
    rcases List.mem_cons.mp ha with h1 | h1
    · rcases List.mem_cons.mp hb with h2 | h2
      · exact absurd (h1.trans h2.symm) hab
      · have : 1 ≤ t.length := List.length_pos.mpr (List.ne_nil_of_mem h2)
        simp only [List.length_cons]
        omega
    · have : 1 ≤ t.length := List.length_pos.mpr (List.ne_nil_of_mem h1)
      simp only [List.length_cons]
      omega

theorem pinUnique_kvSet {q : KV MetaAppDeployQueue} {k : String}
    {item : MetaAppDeployQueue} (hu : PinUnique q)
    (hfresh : ∀ x ∈ q, x.2.pinID ≠ item.pinID) : PinUnique (kvSet q k item) := by
  unfold PinUnique at hu ⊢
  induction q with
  | nil => simp [kvSet]
  | cons e t ih =>
    obtain ⟨ke, ve⟩ := e
    have hu' := (List.pairwise_cons.mp hu).2
    have hhead := (List.pairwise_cons.mp hu).1
    have hfresh' : ∀ x ∈ t, x.2.pinID ≠ item.pinID :=
      fun x hx => hfresh x (List.mem_cons_of_mem _ hx)
    by_cases h1 : strLt k ke
    · simp only [kvSet, h1, if_true, ite_true]
      refine List.Pairwise.cons ?_ hu
      intro b hb
      rcases List.mem_cons.mp hb with hb' | hb'
      · rw [hb']
        exact Ne.symm (hfresh (ke, ve) (List.mem_cons_self _ _))
      · exact Ne.symm (hfresh b (List.mem_cons_of_mem _ hb'))
    · by_cases h2 : k = ke
      · subst h2
        simp only [kvSet, h1]
        simp only [Bool.false_eq_true, ite_false, ite_true, if_neg, if_pos, eq_self_iff_true]
        refine List.Pairwise.cons ?_ hu'
        intro b hb
        exact Ne.symm (hfresh b (List.mem_cons_of_mem _ hb))
      · simp only [kvSet, h1, h2, ite_false]
        refine List.Pairwise.cons ?_ (ih hu' hfresh')
        intro b hb
        rcases mem_kvSet hb with hb' | hb'
        · rw [hb']
          exact hfresh (ke, ve) (List.mem_cons_self _ _)
        · exact hhead b hb'

theorem pinUnique_removeFirstBy {q : KV MetaAppDeployQueue} {f : MetaAppDeployQueue → Bool}
    (hu : PinUnique q) : PinUnique (removeFirstBy q f) := by
  unfold PinUnique at hu ⊢
  induction q with
  | nil => simp [removeFirstBy]
  | cons e t ih =>
    have hu' := (List.pairwise_cons.mp hu).2
    have hhead := (List.pairwise_cons.mp hu).1
    by_cases hf : f e.2
    · simp only [removeFirstBy, hf, if_pos, ite_true]
      exact hu'
    · simp only [removeFirstBy, hf, ite_false]
      refine List.Pairwise.cons ?_ (ih hu')
      intro b hb
      exact hhead b (mem_removeFirstBy hb)

theorem pinUnique_updateFirstBy {q : KV MetaAppDeployQueue} {v : MetaAppDeployQueue}
    (hu : PinUnique q) :
    PinUnique (updateFirstBy q (fun e => e.pinID == v.pinID) v) := by
  unfold PinUnique at hu ⊢
  induction q with
  | nil => simp [updateFirstBy]
  | cons e t ih =>
    have hu' := (List.pairwise_cons.mp hu).2
    have hhead := (List.pairwise_cons.mp hu).1
    by_cases hf : e.2.pinID == v.pinID
    · simp only [updateFirstBy, hf, if_pos, ite_true]
      refine List.Pairwise.cons ?_ hu'
      intro b hb
      have : e.2.pinID = v.pinID := beq_iff_eq.mp hf
      rw [← this]
      exact hhead b hb
    · simp only [updateFirstBy, hf, ite_false]
      refine List.Pairwise.cons ?_ (ih hu')
      intro b hb
      rcases mem_updateFirstBy hb with hb' | ⟨hb2, y, hy, hfy⟩
      · exact hhead b hb'
      · have hyv : y.2.pinID = v.pinID := beq_iff_eq.mp hfy
        rw [hb2, ← hyv]
        exact hhead y hy

theorem getDeployQueueItem_none_iff {q : KV MetaAppDeployQueue} {pin : String} :
    GetDeployQueueItem q pin = none ↔ ∀ x ∈ q, x.2.pinID ≠ pin := by
  unfold GetDeployQueueItem
  rw [Option.map_eq_none', List.find?_eq_none]
  constructor
  · intro h x hx
    have := h x hx
    simpa using this
  · intro h x hx
    simpa using h x hx

theorem createMetaApp_queue (st : Store) (app : MetaApp) :
    (CreateMetaApp st app).queue = st.queue := rfl

theorem createMetaApp_results (st : Store) (app : MetaApp) :
    (CreateMetaApp st app).results = st.results := rfl

theorem deployMetaApp_only_results (env : DeployEnv) (base : String) (st : Store)
    (item : MetaAppDeployQueue) :
    (deployMetaApp env base st item).1.pins = st.pins ∧
    (deployMetaApp env base st item).1.latest = st.latest ∧
    (deployMetaApp env base st item).1.queue = st.queue := by
  unfold deployMetaApp
  split
  · exact ⟨rfl, rfl, rfl⟩
  · dsimp only
    split_ifs
    · exact ⟨rfl, rfl, rfl⟩
    · exact ⟨rfl, rfl, rfl⟩
    · split
      · exact ⟨rfl, rfl, rfl⟩
      · exact ⟨rfl, rfl, rfl⟩

theorem string_mk_data (s : String) : String.mk s.data = s := by
  cases s
  rfl

theorem data_append_str (a b : String) : (a ++ b).data = a.data ++ b.data :=
  String.data_append a b

theorem handlePin_modify_error_unchanged
    (st : Store) (md : PinData) (h t : Int)
    (hget : kvGet st.pins md.pinID = none)
    (hop : md.operation = "modify") (hpath : md.path ≠ "")
    (herr : ∃ e, extractFirstPinIDFromOriginalPath st md.path = .error e) :
    handlePinData st md h t = st := by
  obtain ⟨e, he⟩ := herr
  unfold handlePinData
  cases hc : (isMetaAppPath md.path).1
  · simp [hc]
  · simp [hc, hget, hop, hpath, he]

/-!  Claim theorems.  -/

theorem foldl_append_eq_flatten {α β : Type} (f : α → List β) (l : List α) (a : List β) :
    l.foldl (fun acc x => acc ++ f x) a = a ++ (l.map f).flatten := by
  induction l generalizing a with
  | nil => simp
  | cons x t ih => simp [ih, List.append_assoc]

theorem getTxNewRawByte_eq_spec (tx : MvcTx) :
    getTxNewRawByte tx = mvcSpecPreimage tx := by
  unfold getTxNewRawByte mvcSpecPreimage
  rw [foldl_append_eq_flatten, foldl_append_eq_flatten, foldl_append_eq_flatten]
  simp

theorem normalizeFirstPin_pinID (app : MetaApp) :
    (normalizeFirstPin app).pinID = app.pinID := by
  unfold normalizeFirstPin
  split <;> rfl

theorem isSome_kvGet_kvSet {α : Type} {l : KV α} {p : String} (k : String) (v : α)
    (h : (kvGet l p).isSome) : (kvGet (kvSet l k v) p).isSome := by
  rw [kvGet_kvSet]
  split
  · rfl
  · exact h

theorem isSome_kvGet_kvSet_self {α : Type} (l : KV α) (k : String) (v : α) :
    (kvGet (kvSet l k v) k).isSome := by
  rw [kvGet_kvSet]
  simp

theorem sysInv_empty : SysInv emptyStore := by
  refine ⟨List.Pairwise.nil, ?_, ?_⟩ <;> intro x hx <;> simp [emptyStore] at hx

theorem sysInv_createMetaApp (st : Store) (app : MetaApp) (hinv : SysInv st) :
    SysInv (CreateMetaApp st app) := by
  obtain ⟨h1, h2, h3⟩ := hinv
  refine ⟨?_, ?_, ?_⟩
  · rw [show (CreateMetaApp st app).queue = st.queue from rfl]
    exact h1
  · intro x hx
    rw [show (CreateMetaApp st app).queue = st.queue from rfl] at hx
    rw [show (CreateMetaApp st app).pins = kvSet st.pins app.pinID (normalizeFirstPin app) from rfl]
    exact isSome_kvGet_kvSet _ _ (h2 x hx)
  · intro x hx
    rw [show (CreateMetaApp st app).pins = kvSet st.pins app.pinID (normalizeFirstPin app) from rfl]
    rcases mem_kvSet (by simpa [CreateMetaApp] using hx) with hx' | hx'
    · rw [hx']
      simp only [normalizeFirstPin_pinID]
      exact isSome_kvGet_kvSet_self _ _ _
    · exact isSome_kvGet_kvSet _ _ (h3 x hx')

theorem queue_fresh_of_pin_absent (st : Store) (p : String) (hinv : SysInv st)
    (hnone : kvGet st.pins p = none) : ∀ x ∈ st.queue, x.2.pinID ≠ p := by
  intro x hx hh
  have := hinv.2.1 x hx
  rw [hh, hnone] at this
  simp at this

theorem sysInv_addToDeployQueueService (st : Store) (app : MetaApp) (hinv : SysInv st)
    (hstored : (kvGet st.pins app.pinID).isSome)
    (hfresh : ∀ x ∈ st.queue, x.2.pinID ≠ app.pinID) :
    SysInv (addToDeployQueueService st app) := by
  obtain ⟨h1, h2, h3⟩ := hinv
  unfold addToDeployQueueService AddToDeployQueue
  dsimp only
  split_ifs <;>
    first
      | exact ⟨h1, h2, h3⟩
      | · refine ⟨pinUnique_kvSet h1 hfresh, ?_, h3⟩
          intro x hx
          rcases mem_kvSet hx with hx' | hx'
          · rw [hx']
            exact hstored
          · exact h2 x hx' 

theorem sysInv_process (st : Store) (md : PinData) (firstPinID : String) (h t : Int)
    (hinv : SysInv st) (hnone : kvGet st.pins md.pinID = none) :
    SysInv (addToDeployQueueService
      (CreateMetaApp st (buildMetaAppRecord md firstPinID h t))
      (normalizeFirstPin (buildMetaAppRecord md firstPinID h t))) := by
  have hrec : (buildMetaAppRecord md firstPinID h t).pinID = md.pinID := rfl
  have hst1 := sysInv_createMetaApp st (buildMetaAppRecord md firstPinID h t) hinv
  refine sysInv_addToDeployQueueService _ _ hst1 ?_ ?_
  · rw [normalizeFirstPin_pinID, hrec]
    rw [show (CreateMetaApp st (buildMetaAppRecord md firstPinID h t)).pins
        = kvSet st.pins md.pinID (normalizeFirstPin (buildMetaAppRecord md firstPinID h t))
        from rfl]
    exact isSome_kvGet_kvSet_self _ _ _
  · rw [show (CreateMetaApp st (buildMetaAppRecord md firstPinID h t)).queue = st.queue from rfl]
    rw [normalizeFirstPin_pinID, hrec]
    exact queue_fresh_of_pin_absent st md.pinID hinv hnone

theorem sysInv_handlePinData (st : Store) (md : PinData) (h t : Int)
    (hinv : SysInv st) : SysInv (handlePinData st md h t) := by
  unfold handlePinData
  cases hc : (isMetaAppPath md.path).1
  · simp only [hc, Bool.not_false, ite_true, if_pos]
    exact hinv
  · simp only [hc, Bool.not_true, Bool.false_eq_true, ite_false, if_neg]
    cases hget : kvGet st.pins md.pinID with
    | some ex =>
      dsimp only
      split_ifs
      · exact sysInv_createMetaApp st _ hinv
      · exact hinv
    | none =>
      dsimp only
      by_cases hmod : (decide (md.operation = "modify") && decide (md.path ≠ "")) = true
      · simp only [hmod, ite_true, if_pos]
        cases hres : extractFirstPinIDFromOriginalPath st md.path with
        | error e =>
          dsimp only
          exact hinv
        | ok f =>
          dsimp only
          split_ifs
          · unfold processMetaAppModify
            exact sysInv_process st md f h t hinv hget
          · exact hinv
      · simp only [hmod, Bool.false_eq_true, ite_false, if_neg]
        split_ifs
        · exact hinv
        · unfold processMetaAppContent
          exact sysInv_process st md md.pinID h t hinv hget

theorem sysInv_redeploy (st : Store) (p : String) (hinv : SysInv st) :
    SysInv (RedeployMetaApp st p).1 := by
  obtain ⟨h1, h2, h3⟩ := hinv
  unfold RedeployMetaApp AddToDeployQueue
  cases hp : kvGet st.pins p with
  | none =>
    dsimp only
    exact ⟨h1, h2, h3⟩
  | some ma =>
    dsimp only
    cases hl : kvGet st.latest ma.firstPinId with
    | none =>
      dsimp only
      exact ⟨h1, h2, h3⟩
    | some fr =>
      dsimp only
      cases hq : GetDeployQueueItem st.queue fr.pinID with
      | some q =>
        dsimp only
        exact ⟨h1, h2, h3⟩
      | none =>
        have hfresh : ∀ x ∈ st.queue, x.2.pinID ≠ fr.pinID :=
          getDeployQueueItem_none_iff.mp hq
        have hstored : (kvGet st.pins fr.pinID).isSome :=
          h3 (ma.firstPinId, fr) (kvGet_some_mem hl)
        dsimp only
        split_ifs <;>
          first
            | exact ⟨h1, h2, h3⟩
            | · refine ⟨pinUnique_kvSet h1 hfresh, ?_, h3⟩
                intro x hx
                rcases mem_kvSet hx with hx' | hx'
                · rw [hx']
                  exact hstored
                · exact h2 x hx' 

theorem sysInv_tick (env : DeployEnv) (base : String) (st : Store) (hinv : SysInv st) :
    SysInv (processNextDeployItem env base st).1 := by
  obtain ⟨h1, h2, h3⟩ := hinv
  unfold processNextDeployItem
  cases hq : st.queue.head? with
  | none =>
    dsimp only
    exact ⟨h1, h2, h3⟩
  | some e =>
    dsimp only
    obtain ⟨tl, hcons⟩ : ∃ tl, st.queue = e :: tl := by
      cases hc : st.queue with
      | nil => rw [hc] at hq; simp at hq
      | cons a tl =>
        rw [hc] at hq
        simp at hq
        exact ⟨tl, by rw [hq]⟩
    have hmem : e ∈ st.queue := by
      rw [hcons]
      exact List.mem_cons_self _ _
    obtain ⟨dpins, dlatest, dqueue⟩ := deployMetaApp_only_results env base st e.2
    cases hr : (deployMetaApp env base st e.2).2.2 with
    | error msg =>
      dsimp only
      split_ifs
      · refine ⟨?_, ?_, ?_⟩
        · rw [dqueue]
          exact pinUnique_removeFirstBy h1
        · intro x hx
          rw [dqueue] at hx
          rw [dpins]
          exact h2 x (mem_removeFirstBy hx)
        · intro x hx
          rw [dlatest] at hx
          rw [dpins]
          exact h3 x hx
      · refine ⟨?_, ?_, ?_⟩
        · rw [dqueue]
          exact @pinUnique_updateFirstBy st.queue
            { e.2 with tryCount := e.2.tryCount + 1 } h1
        · intro x hx
          rw [dqueue] at hx
          rw [dpins]
          rcases mem_updateFirstBy hx with hx' | ⟨hx2, y, hy, hfy⟩
          · exact h2 x hx'
          · have hpid : x.2.pinID = e.2.pinID := by rw [hx2]
            rw [hpid]
            exact h2 e hmem
        · intro x hx
          rw [dlatest] at hx
          rw [dpins]
          exact h3 x hx
    | ok u =>
      dsimp only
      refine ⟨?_, ?_, ?_⟩
      · rw [dqueue]
        exact pinUnique_removeFirstBy h1
      · intro x hx
        rw [dqueue] at hx
        rw [dpins]
        exact h2 x (mem_removeFirstBy hx)
      · intro x hx
        rw [dlatest] at hx
        rw [dpins]
        exact h3 x hx

theorem sysInv_applySysOp (st : Store) (op : SysOp) (hinv : SysInv st) :
    SysInv (applySysOp st op) := by
  cases op with
  | ingest md h t => exact sysInv_handlePinData st md h t hinv
  | redeploy p => exact sysInv_redeploy st p hinv
  | tick env base => exact sysInv_tick env base st hinv

theorem sysInv_runSys (ops : List SysOp) : SysInv (runSys ops) := by
  unfold runSys
  suffices h : ∀ st, SysInv st → SysInv (ops.foldl applySysOp st) from
    h emptyStore sysInv_empty
  induction ops with
  | nil => intro st hst; exact hst
  | cons op t ih =>
    intro st hst
    exact ih (applySysOp st op) (sysInv_applySysOp st op hst)

/-- Claim C8: for every sequence of system operations — ingested pins,
external redeploy requests and deploy-worker ticks — starting from the
empty store, the deploy-queue collection holds at most one entry per pin
id; and a redeploy request whose resolved latest version is already queued
is refused with the recognisable error, leaving the store unchanged.  (The
indexer never enqueues an already-stored pin, because the per-pin handler
short-circuits on an existing record, and every queued pin is stored.) -/
theorem C8_queue_at_most_one_entry_per_pin :
    (∀ ops : List SysOp, PinUnique (runSys ops).queue) ∧
    (∀ (st : Store) (p : String) (ma fr : MetaApp) (q : MetaAppDeployQueue),
        kvGet st.pins p = some ma →
        kvGet st.latest ma.firstPinId = some fr →
        GetDeployQueueItem st.queue fr.pinID = some q →
        RedeployMetaApp st p = (st, .error "MetaApp is already in deploy queue")) := by
  constructor
  · intro ops
    exact (sysInv_runSys ops).1
  · intro st p ma fr q hp hl hq
    unfold RedeployMetaApp
    rw [hp]
    dsimp only
    rw [hl]
    dsimp only
    rw [hq]

/-- Claim C8, witness: the empty run has a pin-unique queue, and over the
concrete store `c8St` — where the latest version `q` of `p`'s logical app
is already queued — the redeploy of `p` is refused and the store is
unchanged. -/
theorem C8_queue_at_most_one_entry_per_pin_witness :
    PinUnique (runSys []).queue ∧
    RedeployMetaApp c8St "p" = (c8St, .error "MetaApp is already in deploy queue") :=
  ⟨C8_queue_at_most_one_entry_per_pin.1 [],
   C8_queue_at_most_one_entry_per_pin.2 c8St "p" c8Ma c8Fr c8Item
     (by decide) (by decide) (by decide)⟩

/-- Claim C3: `GetMvcTxhash` selects the hashing variant from the first
four raw bytes read as a little-endian 32-bit version.  For version ≥ 10 it
returns the byte-reversed hex of the double-SHA-256 of the compact
pre-image of the deserialised transaction — 4-byte LE version, locktime,
input count and output count, then the SHA-256 digests over the inputs'
outpoint data, over the inputs' script digests, and over the outputs'
value-and-script digests — and for version < 10 the byte-reversed hex of
the double-SHA-256 of the raw bytes themselves. -/
theorem C3_mvc_txhash_variants :
    (∀ (raw : List Nat) (tx : MvcTx),
        4 ≤ raw.length →
        deserializeMvcTx raw = some tx →
        10 ≤ readLE32 (raw.take 4) →
        GetMvcTxhash raw = hexStr ((DoubleSHA256 (mvcSpecPreimage tx)).reverse)) ∧
    (∀ raw : List Nat,
        4 ≤ raw.length →
        readLE32 (raw.take 4) < 10 →
        GetMvcTxhash raw = hexStr ((DoubleSHA256 raw).reverse)) := by
  constructor
  · intro raw tx hlen hdes hver
    unfold GetMvcTxhash
    have h0 : ¬raw.length = 0 := by omega
    have h4 : ¬raw.length < 4 := by omega
    simp only [h0, h4, ite_false, if_neg]
    rw [if_pos hver]
    unfold GetTxNewhash
    rw [hdes]
    simp only [getTxNewRawByte_eq_spec]
  · intro raw hlen hver
    unfold GetMvcTxhash
    have h0 : ¬raw.length = 0 := by omega
    have h4 : ¬raw.length < 4 := by omega
    have hv : ¬(10 ≤ readLE32 (raw.take 4)) := by omega
    simp only [h0, h4, ite_false, if_neg]
    rw [if_neg hv]

/-- Claim C3, witness: the serialization of the version-10 transaction
`c3Tx` hashes through the compact pre-image, and the version-1 byte string
hashes as raw bytes. -/
theorem C3_mvc_txhash_variants_witness :
    GetMvcTxhash c3Raw = hexStr ((DoubleSHA256 (mvcSpecPreimage c3Tx)).reverse) ∧
    GetMvcTxhash c3RawSmall = hexStr ((DoubleSHA256 c3RawSmall).reverse) :=
  ⟨C3_mvc_txhash_variants.1 c3Raw c3Tx (by decide) (by decide) (by decide),
   C3_mvc_txhash_variants.2 c3RawSmall (by decide) (by decide)⟩

/-- Claim C1: the spec says the deploy worker processes queue items in FIFO
order by original enqueue timestamp — the item returned by
`GetNextDeployQueueItem` (the first key of the `deploy_queue` collection)
should be the queued item with the smallest timestamp.  The code does the
opposite: reverse-timestamp keys sort newest first, so on a queue holding
items enqueued at timestamps 1000 and 2000 the first key belongs to the
timestamp-2000 item, not the timestamp-1000 one — contradicting the
function's own comment that the first item is the earliest. -/
theorem C1_get_next_returns_newest_not_oldest :
    GetNextDeployQueueItem c1Queue = some c1ItemNew ∧
    c1ItemNew.timestamp = 2000 ∧
    (∃ e ∈ c1Queue, e.2 = c1ItemOld) ∧
    c1ItemOld.timestamp = 1000 ∧
    c1ItemOld ≠ c1ItemNew := by
  decide

/-- Claim C2, counterexample: ingesting the same create pin first from the
mempool (height 0) and then from a block at height 100 leaves two history
entries for its `first_pin_id`, while ingesting from the block alone leaves
one — the second arrival appends a duplicate history entry and the two
stores differ, refuting idempotence. -/
theorem C2_history_duplicate_cex :
    (kvGet c2TwiceStore.history "p1").map List.length = some 2 ∧
    (kvGet c2OnceStore.history "p1").map List.length = some 1 ∧
    c2TwiceStore ≠ c2OnceStore := by
  decide

/-- Claim C5, counterexample: with a downloaded `app.zip` whose entries are
`ok.txt` followed by `../evil`, extraction writes `ok.txt` before refusing
(so a file from the archive is written), and with the single-entry
`../evil` archive the deploy still records a `"completed"` DeployResult and
returns success — refuting both "no file from the archive is written" and
"the deploy does not record a completed result". -/
theorem C5_zip_escape_still_completes_cex :
    unzipFile "/d/p" c5Env2.zip = (["/d/p/ok.txt"], some "invalid file path: /d/evil") ∧
    unzipFile "/d/p" c5Env.zip = ([], some "invalid file path: /d/evil") ∧
    (deployMetaApp c5Env "/d" c5St c5Item).1.results.map (fun x => (x.1, x.2.deployStatus))
      = [("p", "completed")] ∧
    (deployMetaApp c5Env "/d" c5St c5Item).2.2 = .ok () := by
  decide

/-- Claim C6, counterexample: a queue item whose artifact reference is
malformed (`metafile://bad`) fails before the download step; on the attempt
that lifts `try_count` from 2 to the ceiling 3 the item is removed from the
queue, but no DeployResult of any kind is written for its pin — refuting
"a DeployResult with status failed carrying the last error message is
written". -/
theorem C6_ceiling_without_failed_result_cex :
    c6Item.tryCount = 2 ∧
    GetDeployQueueItem c6St.queue "p" = some c6Item ∧
    (processNextDeployItem c6Env "/d" c6St).1.queue = [] ∧
    (processNextDeployItem c6Env "/d" c6St).1.results = [] := by
  decide

/-- Claim C2 (amended): a second arrival of an already-stored pin id
updates only `block_height` on the stored record — and only when the stored
height is lower and the new height positive, otherwise the store is
untouched — but re-persisting the bumped record appends one more history
entry under its `first_pin_id`; the deploy queue is untouched.  So
mempool-then-block ingestion differs from block-alone ingestion exactly by
the duplicated history entry. -/
theorem C2_second_arrival_amended :
    ∀ (st : Store) (md : PinData) (ex : MetaApp) (h t : Int),
      (isMetaAppPath md.path).1 = true →
      kvGet st.pins md.pinID = some ex →
      (ex.blockHeight < h ∧ 0 < h →
        handlePinData st md h t = UpdateMetaApp st { ex with blockHeight := h } ∧
        kvGet (handlePinData st md h t).pins ex.pinID
          = some (normalizeFirstPin { ex with blockHeight := h }) ∧
        ((kvGet (handlePinData st md h t).history
            (if ex.firstPinId = "" then ex.pinID else ex.firstPinId)).getD []).length
          = ((kvGet st.history
              (if ex.firstPinId = "" then ex.pinID else ex.firstPinId)).getD []).length + 1 ∧
        (handlePinData st md h t).queue = st.queue) ∧
      (¬(ex.blockHeight < h ∧ 0 < h) → handlePinData st md h t = st) := by
  intro st md ex h t hma hget
  constructor
  · intro hbump
    have hcond : (decide (ex.blockHeight < h) && decide (0 < h)) = true := by
      simp [hbump.1, hbump.2]
    have hstep : handlePinData st md h t = UpdateMetaApp st { ex with blockHeight := h } := by
      unfold handlePinData
      simp [hma, hget, hbump.1, hbump.2]
    refine ⟨hstep, ?_, ?_, ?_⟩
    · rw [hstep]
      unfold UpdateMetaApp CreateMetaApp
      simp [kvGet_kvSet]
    · rw [hstep]
      unfold UpdateMetaApp CreateMetaApp addToHistory
      simp [kvGet_kvSet, length_sortByTsDesc]
    · rw [hstep]
      rfl
  · intro hneg
    have hcond : ¬(decide (ex.blockHeight < h) && decide (0 < h)) = true := by
      simp only [Bool.and_eq_true, decide_eq_true_eq]
      exact fun hh => hneg hh
    unfold handlePinData
    simp [hma, hget, hcond]

/-- Claim C2, witness for the amended theorem: re-ingesting the stored
mempool record of `c2Md` at height 100 appends one more history entry for
`p1`. -/
theorem C2_second_arrival_amended_witness :
    (isMetaAppPath c2Md.path).1 = true ∧
    kvGet c2MemStore.pins c2Md.pinID = some c2Ex ∧
    ((kvGet (handlePinData c2MemStore c2Md 100 1700000000000).history
        (if c2Ex.firstPinId = "" then c2Ex.pinID else c2Ex.firstPinId)).getD []).length
      = ((kvGet c2MemStore.history
          (if c2Ex.firstPinId = "" then c2Ex.pinID else c2Ex.firstPinId)).getD []).length + 1 :=
  ⟨by decide, by decide,
   ((C2_second_arrival_amended c2MemStore c2Md c2Ex 100 1700000000000
       (by decide) (by decide)).1 (by decide)).2.2.1⟩

/-- Claim C4: a modify whose parent walk reaches a pin id absent from the
pin collection aborts — an unvisited absent hop resolves to a `notFound`
error, an intermediate modify hop forwards the walk (so a deeper error
propagates unchanged), and a modify pin whose resolution errors leaves the
store untouched: no MetaAppRecord is written and no deploy-queue entry is
created. -/
theorem C4_absent_ancestor_aborts :
    (∀ (fuel : Nat) (st : Store) (p : String) (visited : List String),
        p ∉ visited →
        kvGet st.pins p = none →
        findFirstPinIDRecursive (fuel + 1) st p visited
          = .error (.notFound p)) ∧
    (∀ (fuel : Nat) (st : Store) (p : String) (visited : List String) (ma : MetaApp),
        p ∉ visited →
        kvGet st.pins p = some ma →
        ma.operation = "modify" → ma.firstPinId ≠ "" → ma.firstPinId ≠ p →
        findFirstPinIDRecursive (fuel + 1) st p visited
          = findFirstPinIDRecursive fuel st ma.firstPinId (p :: visited)) ∧
    (∀ (st : Store) (md : PinData) (h t : Int),
        kvGet st.pins md.pinID = none →
        md.operation = "modify" → md.path ≠ "" →
        (∃ e, extractFirstPinIDFromOriginalPath st md.path = .error e) →
        handlePinData st md h t = st) := by
  refine ⟨?_, ?_, ?_⟩
  · intro fuel st p visited hvis hget
    conv_lhs => rw [findFirstPinIDRecursive]
    simp [hvis, hget]
  · intro fuel st p visited ma hvis hget hop hfp hne
    conv_lhs => rw [findFirstPinIDRecursive]
    simp [hvis, hget, hop, hfp, hne]
  · intro st md h t hget hop hpath herr
    exact handlePin_modify_error_unchanged st md h t hget hop hpath herr

/-- Claim C4, witness: in the empty store the walk from pin `p0` fails with
`notFound`, and the modify pin `c4Md` referencing it leaves the store
unchanged. -/
theorem C4_absent_ancestor_aborts_witness :
    findFirstPinIDRecursive 1 emptyStore "p0" [] = .error (.notFound "p0") ∧
    handlePinData emptyStore c4Md 5 6 = emptyStore :=
  ⟨C4_absent_ancestor_aborts.1 0 emptyStore "p0" [] (by decide) (by decide),
   C4_absent_ancestor_aborts.2.2 emptyStore c4Md 5 6 (by decide) (by decide) (by decide)
     ⟨.notFound "p0", by decide⟩⟩

/-- Claim C7: a modify whose parent walk revisits a pin id already seen
during the same resolution is refused — re-entering a visited pin returns a
`circularReference` error, a stored two-cycle of modify records makes the
whole resolution return that error, and a modify pin whose resolution
errors leaves the store untouched (no MetaAppRecord is written). -/
theorem C7_circular_reference_refused :
    (∀ (fuel : Nat) (st : Store) (p : String) (visited : List String),
        p ∈ visited →
        findFirstPinIDRecursive (fuel + 1) st p visited
          = .error (.circularReference p)) ∧
    (∀ (st : Store) (a b : String) (ma mb : MetaApp),
        a ≠ "" → b ≠ "" → a ≠ b →
        kvGet st.pins a = some ma →
        ma.operation = "modify" → ma.firstPinId = b →
        kvGet st.pins b = some mb →
        mb.operation = "modify" → mb.firstPinId = a →
        extractFirstPinIDFromOriginalPath st ("@" ++ a)
          = .error (.circularReference a)) ∧
    (∀ (st : Store) (md : PinData) (h t : Int),
        kvGet st.pins md.pinID = none →
        md.operation = "modify" → md.path ≠ "" →
        (∃ e, extractFirstPinIDFromOriginalPath st md.path = .error e) →
        handlePinData st md h t = st) := by
  refine ⟨?_, ?_, ?_⟩
  · intro fuel st p visited hvis
    conv_lhs => rw [findFirstPinIDRecursive]
    simp [hvis]
  · intro st a b ma mb ha hb hab hga hopa hfa hgb hopb hfb
    have hdata : ("@" ++ a).data = '@' :: a.data := by
      rw [data_append_str]
      rfl
    have hne : ("@" ++ a) ≠ "" := by
      intro hh
      have := congrArg String.data hh
      rw [hdata] at this
      simp at this
    have hstarts : strStarts ("@" ++ a) "@" = true := by
      unfold strStarts
      rw [hdata]
      simp [listStartsWith]
    have hdrop : strDrop ("@" ++ a) 1 = a := by
      unfold strDrop
      rw [hdata]
      simp
    have hlen : 2 ≤ st.pins.length := by
      refine two_mem_le_length (kvGet_some_mem hga) (kvGet_some_mem hgb) ?_
      intro hh
      exact hab (congrArg Prod.fst hh)
    obtain ⟨n, hn⟩ : ∃ n, st.pins.length = n + 2 := ⟨st.pins.length - 2, by omega⟩
    unfold extractFirstPinIDFromOriginalPath
    simp only [hne, hstarts, hdrop, if_true, ite_true, ite_false, if_neg, if_pos]
    have hstep1 :
        findFirstPinIDRecursive (st.pins.length + 1) st a []
          = findFirstPinIDRecursive st.pins.length st b [a] := by
      conv_lhs => rw [show st.pins.length + 1 = st.pins.length + 1 from rfl]
      rw [show st.pins.length = n + 2 from hn]
      conv_lhs => rw [findFirstPinIDRecursive]
      simp [hga, hopa, hfa, hb, Ne.symm hab, hn]
    have hstep2 :
        findFirstPinIDRecursive st.pins.length st b [a]
          = findFirstPinIDRecursive (st.pins.length - 1) st a [b, a] := by
      rw [show st.pins.length = n + 2 from hn]
      conv_lhs => rw [show n + 2 = (n + 1) + 1 from rfl]
      conv_lhs => rw [findFirstPinIDRecursive]
      have hba : b ≠ a := fun hh => hab hh.symm
      simp [hba, hgb, hopb, hfb, ha, hab]
    have hstep3 :
        findFirstPinIDRecursive (st.pins.length - 1) st a [b, a]
          = .error (.circularReference a) := by
      rw [show st.pins.length = n + 2 from hn]
      conv_lhs => rw [show n + 2 - 1 = n + 1 from rfl]
      conv_lhs => rw [findFirstPinIDRecursive]
      have hmem : a ∈ [b, a] := by simp
      simp [hmem]
    split_ifs with hcase
    · exact absurd hcase ha
    · rw [hstep1, hstep2, hstep3]
  · intro st md h t hget hop hpath herr
    exact handlePin_modify_error_unchanged st md h t hget hop hpath herr

/-- Claim C9: every record persisted through `CreateMetaApp` has a
non-empty `first_pin_id` when its pin id is non-empty — an empty
`FirstPinId` is replaced by the record's own pin id before any collection
is written, the normalized record lands in the pin and latest collections,
and a store all of whose records (pin, latest, history, by-creator,
by-time) carry a non-empty `first_pin_id` keeps that property. -/
theorem C9_create_meta_app_first_pin_non_empty :
    ∀ (st : Store) (app : MetaApp),
      app.pinID ≠ "" →
      (normalizeFirstPin app).firstPinId ≠ "" ∧
      kvGet (CreateMetaApp st app).pins app.pinID = some (normalizeFirstPin app) ∧
      kvGet (CreateMetaApp st app).latest (normalizeFirstPin app).firstPinId
        = some (normalizeFirstPin app) ∧
      (RecordsFirstNonEmpty st → RecordsFirstNonEmpty (CreateMetaApp st app)) := by
  intro st app hpin
  have hfp : (normalizeFirstPin app).firstPinId
      = if app.firstPinId = "" then app.pinID else app.firstPinId := by
    unfold normalizeFirstPin
    split <;> rfl
  have hne : (normalizeFirstPin app).firstPinId ≠ "" := by
    rw [hfp]
    split
    · exact hpin
    · assumption
  refine ⟨hne, ?_, ?_, ?_⟩
  · unfold CreateMetaApp
    simp [kvGet_kvSet]
  · unfold CreateMetaApp
    simp [kvGet_kvSet, hfp]
  · intro hinv
    obtain ⟨h1, h2, h3, h4, h5⟩ := hinv
    refine ⟨?_, ?_, ?_, ?_, ?_⟩
    · intro x hx
      have hxk : x ∈ kvSet st.pins app.pinID (normalizeFirstPin app) := by
        simpa [CreateMetaApp] using hx
      rcases mem_kvSet hxk with hx' | hx'
      · rw [hx']
        exact hne
      · exact h1 x hx'
    · intro x hx
      have hxk : x ∈ kvSet st.latest
          (if app.firstPinId = "" then app.pinID else app.firstPinId)
          (normalizeFirstPin app) := by
        simpa [CreateMetaApp] using hx
      rcases mem_kvSet hxk with hx' | hx'
      · rw [hx']
        exact hne
      · exact h2 x hx'
    · intro x hx a hax
      have hxk : x ∈ kvSet st.history
          (if app.firstPinId = "" then app.pinID else app.firstPinId)
          (sortByTsDesc
            (((kvGet st.history
                (if app.firstPinId = "" then app.pinID else app.firstPinId)).getD [])
              ++ [normalizeFirstPin app])) := by
        simpa [CreateMetaApp, addToHistory] using hx
      rcases mem_kvSet hxk with hx' | hx'
      · have hmem : a ∈ sortByTsDesc
            (((kvGet st.history (if app.firstPinId = "" then app.pinID
                else app.firstPinId)).getD []) ++ [normalizeFirstPin app]) := by
          rw [hx'] at hax
          exact hax
        rcases List.mem_append.mp (mem_sortByTsDesc hmem) with hm | hm
        · cases hh : kvGet st.history
              (if app.firstPinId = "" then app.pinID else app.firstPinId) with
          | none => rw [hh] at hm; simp at hm
          | some old =>
            rw [hh] at hm
            exact h3 _ (kvGet_some_mem hh) a (by simpa using hm)
        · rw [List.mem_singleton.mp hm]
          exact hne
      · exact h3 x hx' a hax
    · intro x hx
      simp only [CreateMetaApp] at hx
      rcases mem_kvSet hx with hx' | hx'
      · rw [hx']
        exact hne
      · exact h4 x (List.mem_filter.mp hx').1
    · intro x hx
      simp only [CreateMetaApp] at hx
      rcases mem_kvSet hx with hx' | hx'
      · rw [hx']
        exact hne
      · exact h5 x (List.mem_filter.mp hx').1

/-- Claim C9, witness: creating the record `c9App`, whose `FirstPinId` is
empty and whose pin id is `p9`, stores it with `first_pin_id = p9`. -/
theorem C9_create_meta_app_first_pin_non_empty_witness :
    (normalizeFirstPin c9App).firstPinId ≠ "" ∧
    kvGet (CreateMetaApp emptyStore c9App).pins "p9" = some (normalizeFirstPin c9App) :=
  ⟨(C9_create_meta_app_first_pin_non_empty emptyStore c9App (by decide)).1,
   (C9_create_meta_app_first_pin_non_empty emptyStore c9App (by decide)).2.1⟩

/-- Claim C10: a failed artifact download immediately writes a DeployResult
with status `failed` and the download error message for the item's pin,
even while `try_count` stays below the retry ceiling — the item then
remains in the queue with `try_count` raised by one, so the deploy result
can read `failed` while the item is still pending retry. -/
theorem C10_download_failure_immediate_failed_result :
    ∀ (env : DeployEnv) (base : String) (st : Store) (k : String)
      (item : MetaAppDeployQueue) (ma : MetaApp) (e : String),
      st.queue.head? = some (k, item) →
      kvGet st.pins item.pinID = some ma →
      derivePinToDownload item ≠ "" →
      isValidMetafilePinID (derivePinToDownload item) = true →
      env.fetch = .error e →
      item.tryCount + 1 < 3 →
      (∃ c, kvGet (processNextDeployItem env base st).1.results ma.pinID = some c ∧
          c.deployStatus = "failed" ∧ c.deployMessage = e) ∧
      GetDeployQueueItem (processNextDeployItem env base st).1.queue item.pinID
        = some { item with tryCount := item.tryCount + 1 } := by
  intro env base st k item ma e hhead hma hdl hval hfe hlt
  obtain ⟨tl, hq⟩ : ∃ tl, st.queue = (k, item) :: tl := by
    cases hq : st.queue with
    | nil => rw [hq] at hhead; simp at hhead
    | cons e0 tl =>
      rw [hq] at hhead
      simp at hhead
      exact ⟨tl, by rw [hhead]⟩
  have hdep : deployMetaApp env base st item
      = ({ st with results := CreateOrUpdateDeployFileContent st.results (failedDeployContent ma item (goJoin base ma.firstPinId) e) }, [], .error ("failed to download file: " ++ e)) := by
    unfold deployMetaApp
    simp [hma, hdl, hval, hfe]
  have hnotceil : ¬(3 ≤ item.tryCount + 1) := by omega
  have hrun : (processNextDeployItem env base st).1
      = { st with
          results := CreateOrUpdateDeployFileContent st.results (failedDeployContent ma item (goJoin base ma.firstPinId) e)
          queue := UpdateDeployQueueItem st.queue { item with tryCount := item.tryCount + 1 } } := by
    unfold processNextDeployItem
    rw [hq]
    simp only [List.head?_cons]
    rw [hdep]
    simp [hnotceil, hq]
  rw [hrun]
  constructor
  · refine ⟨failedDeployContent ma item (goJoin base ma.firstPinId) e, ?_, rfl, rfl⟩
    simp [CreateOrUpdateDeployFileContent, failedDeployContent, kvGet_kvSet]
  · rw [hq]
    unfold UpdateDeployQueueItem updateFirstBy
    simp [GetDeployQueueItem, List.find?]

/-- Claim C10, witness: one tick over `c5St` with a failing download writes
the `failed` result with message `boom` while the item stays queued with
`try_count = 1`. -/
theorem C10_download_failure_immediate_failed_result_witness :
    (∃ c, kvGet (processNextDeployItem ⟨.error "boom", []⟩ "/d" c5St).1.results "p" = some c ∧
        c.deployStatus = "failed" ∧ c.deployMessage = "boom") ∧
    GetDeployQueueItem (processNextDeployItem ⟨.error "boom", []⟩ "/d" c5St).1.queue "p"
      = some { c5Item with tryCount := 1 } :=
  C10_download_failure_immediate_failed_result ⟨.error "boom", []⟩ "/d" c5St
    (reverseTsKey 5 ++ ":" ++ "p") c5Item c5App "boom"
    (by decide) (by decide) (by decide) (by decide) (by decide) (by decide)

/-- Claim C6 (amended): on a failed deploy attempt `try_count` is raised by
one; when it reaches the ceiling 3 the item is removed from the queue and
below the ceiling it stays with the raised count.  A DeployResult with
status `failed` carrying the last error message exists because the
download step wrote it before the retry bookkeeping — the removal path
itself writes none, so a failure occurring before the download step (for
example a malformed artifact reference) leaves no DeployResult at all. -/
theorem C6_retry_accounting_amended :
    ∀ (env : DeployEnv) (base : String) (st : Store) (k : String)
      (item : MetaAppDeployQueue) (ma : MetaApp) (e : String),
      PinUnique st.queue →
      st.queue.head? = some (k, item) →
      kvGet st.pins item.pinID = some ma →
      derivePinToDownload item ≠ "" →
      isValidMetafilePinID (derivePinToDownload item) = true →
      env.fetch = .error e →
      (∃ c, kvGet (processNextDeployItem env base st).1.results ma.pinID = some c ∧
          c.deployStatus = "failed" ∧ c.deployMessage = e) ∧
      (3 ≤ item.tryCount + 1 →
        GetDeployQueueItem (processNextDeployItem env base st).1.queue item.pinID = none) ∧
      (item.tryCount + 1 < 3 →
        GetDeployQueueItem (processNextDeployItem env base st).1.queue item.pinID
          = some { item with tryCount := item.tryCount + 1 }) := by
  intro env base st k item ma e huniq hhead hma hdl hval hfe
  obtain ⟨tl, hq⟩ : ∃ tl, st.queue = (k, item) :: tl := by
    cases hq : st.queue with
    | nil => rw [hq] at hhead; simp at hhead
    | cons e0 tl =>
      rw [hq] at hhead
      simp at hhead
      exact ⟨tl, by rw [hhead]⟩
  have hdep : deployMetaApp env base st item
      = ({ st with results := CreateOrUpdateDeployFileContent st.results (failedDeployContent ma item (goJoin base ma.firstPinId) e) }, [], .error ("failed to download file: " ++ e)) := by
    unfold deployMetaApp
    simp [hma, hdl, hval, hfe]
  refine ⟨?_, ?_, ?_⟩
  · have hres : (processNextDeployItem env base st).1.results
        = CreateOrUpdateDeployFileContent st.results
            (failedDeployContent ma item (goJoin base ma.firstPinId) e) := by
      unfold processNextDeployItem
      rw [hq]
      simp only [List.head?_cons]
      rw [hdep]
      split_ifs <;> rfl
    rw [hres]
    refine ⟨failedDeployContent ma item (goJoin base ma.firstPinId) e, ?_, rfl, rfl⟩
    simp [CreateOrUpdateDeployFileContent, failedDeployContent, kvGet_kvSet]
  · intro hceil
    have hqueue : (processNextDeployItem env base st).1.queue
        = RemoveFromDeployQueue st.queue item.pinID := by
      unfold processNextDeployItem
      rw [hq]
      simp only [List.head?_cons]
      rw [hdep]
      simp [hceil, hq]
    rw [hqueue, hq]
    unfold RemoveFromDeployQueue removeFirstBy
    simp only [beq_self_eq_true, if_pos, ite_true]
    refine getDeployQueueItem_none_iff.mpr ?_
    intro x hx
    have := (List.pairwise_cons.mp (by rw [hq] at huniq; exact huniq)).1 x hx
    exact fun hh => this hh.symm
  · intro hlt
    have hnotceil : ¬(3 ≤ item.tryCount + 1) := by omega
    have hqueue : (processNextDeployItem env base st).1.queue
        = UpdateDeployQueueItem st.queue { item with tryCount := item.tryCount + 1 } := by
      unfold processNextDeployItem
      rw [hq]
      simp only [List.head?_cons]
      rw [hdep]
      simp [hnotceil, hq]
    rw [hqueue, hq]
    unfold UpdateDeployQueueItem updateFirstBy
    simp [GetDeployQueueItem, List.find?]

/-- Claim C6, witness for the amended theorem: over `c6wSt` (valid artifact
reference, `try_count = 2`) a failing download leaves the `failed` result
with the message and clears the queue entry. -/
theorem C6_retry_accounting_amended_witness :
    (∃ c, kvGet (processNextDeployItem ⟨.error "boom", []⟩ "/d" c6wSt).1.results "p" = some c ∧
        c.deployStatus = "failed" ∧ c.deployMessage = "boom") ∧
    GetDeployQueueItem (processNextDeployItem ⟨.error "boom", []⟩ "/d" c6wSt).1.queue "p"
      = none :=
  ⟨(C6_retry_accounting_amended ⟨.error "boom", []⟩ "/d" c6wSt
      (reverseTsKey 5 ++ ":" ++ "p") c6wItem c5App "boom"
      (by decide) (by decide) (by decide) (by decide) (by decide) (by decide)).1,
   (C6_retry_accounting_amended ⟨.error "boom", []⟩ "/d" c6wSt
      (reverseTsKey 5 ++ ":" ++ "p") c6wItem c5App "boom"
      (by decide) (by decide) (by decide) (by decide) (by decide) (by decide)).2.1
     (by decide)⟩

/-- Claim C5 (amended): zip extraction refuses the first entry whose
cleaned path escapes the deploy root — every path it writes lies strictly
under the cleaned root, so the escaping entry is never written (entries
before it are) — but `deployMetaApp` swallows the extraction error: after
any successful download it returns success and records a `completed`
DeployResult, whatever the archive contains. -/
theorem C5_zip_escape_amended :
    (∀ (dir : String) (entries : List ZipEntry) (f : String),
        f ∈ (unzipFile dir entries).1 → strStarts f (goClean dir ++ "/") = true) ∧
    (∀ (env : DeployEnv) (base : String) (st : Store)
       (item : MetaAppDeployQueue) (ma : MetaApp) (fname : String),
        kvGet st.pins item.pinID = some ma →
        derivePinToDownload item ≠ "" →
        isValidMetafilePinID (derivePinToDownload item) = true →
        env.fetch = .ok fname →
        (deployMetaApp env base st item).2.2 = .ok () ∧
        ∃ c, kvGet (deployMetaApp env base st item).1.results ma.pinID = some c ∧
          c.deployStatus = "completed") := by
  constructor
  · intro dir entries
    induction entries with
    | nil => intro f hf; simp [unzipFile] at hf
    | cons e0 rest ih =>
      intro f hf
      by_cases hc : strStarts (goJoin dir e0.name) (goClean dir ++ "/")
      · by_cases hd : e0.isDir
        · have hstep : unzipFile dir (e0 :: rest) = unzipFile dir rest := by
            conv_lhs => rw [unzipFile]
            simp [hc, hd]
          rw [hstep] at hf
          exact ih f hf
        · have hstep : unzipFile dir (e0 :: rest)
              = (goJoin dir e0.name :: (unzipFile dir rest).1, (unzipFile dir rest).2) := by
            conv_lhs => rw [unzipFile]
            simp [hc, hd]
          rw [hstep] at hf
          rcases List.mem_cons.mp hf with hf' | hf'
          · rw [hf']
            exact hc
          · exact ih f hf'
      · have hstep : unzipFile dir (e0 :: rest)
            = ([], some ("invalid file path: " ++ goJoin dir e0.name)) := by
          conv_lhs => rw [unzipFile]
          simp [hc]
        rw [hstep] at hf
        simp at hf
  · intro env base st item ma fname hma hdl hval hfe
    have hdep : (deployMetaApp env base st item).2.2 = .ok () ∧
        (deployMetaApp env base st item).1.results
          = CreateOrUpdateDeployFileContent st.results
              (completedDeployContent ma item (goJoin base ma.firstPinId)) := by
      unfold deployMetaApp
      simp [hma, hdl, hval, hfe]
    refine ⟨hdep.1, completedDeployContent ma item (goJoin base ma.firstPinId), ?_, rfl⟩
    rw [hdep.2]
    simp [CreateOrUpdateDeployFileContent, completedDeployContent, kvGet_kvSet]

/-- Claim C5, witness for the amended theorem: every file the extraction of
`c5Env2`'s archive writes under `/d/p` stays under `/d/p/`, and the deploy
of `c5Item` with that download completes with a `completed` result. -/
theorem C5_zip_escape_amended_witness :
    strStarts "/d/p/ok.txt" (goClean "/d/p" ++ "/") = true ∧
    (deployMetaApp c5Env2 "/d" c5St c5Item).2.2 = .ok () ∧
    (∃ c, kvGet (deployMetaApp c5Env2 "/d" c5St c5Item).1.results "p" = some c ∧
        c.deployStatus = "completed") :=
  ⟨C5_zip_escape_amended.1 "/d/p" c5Env2.zip "/d/p/ok.txt" (by decide),
   (C5_zip_escape_amended.2 c5Env2 "/d" c5St c5Item c5App "app.zip"
      (by decide) (by decide) (by decide) (by decide)).1,
   (C5_zip_escape_amended.2 c5Env2 "/d" c5St c5Item c5App "app.zip"
      (by decide) (by decide) (by decide) (by decide)).2⟩

/-- Claim C7, witness: re-entering the visited pin `x` errors immediately,
the concrete two-cycle `A ↔ B` makes the resolution of `@A` return a
cycle error, and the modify pin `C` referencing `A` leaves the cycle store
unchanged. -/
theorem C7_circular_reference_refused_witness :
    findFirstPinIDRecursive 1 emptyStore "x" ["x"] = .error (.circularReference "x") ∧
    extractFirstPinIDFromOriginalPath c7St "@A" = .error (.circularReference "A") ∧
    handlePinData c7St c7Md 9 9 = c7St :=
  ⟨C7_circular_reference_refused.1 0 emptyStore "x" ["x"] (by decide),
   (by decide : ("@" ++ "A" : String) = "@A") ▸
     C7_circular_reference_refused.2.1 c7St "A" "B" c7A c7B (by decide) (by decide)
       (by decide) (by decide) (by decide) (by decide) (by decide) (by decide) (by decide),
   C7_circular_reference_refused.2.2 c7St c7Md 9 9 (by decide) (by decide) (by decide)
     ⟨.circularReference "A", by decide⟩⟩

end Metaweb
